import Mathlib

/-!
Verification of the PCB knowledge-graph builder and layout engines.

The builder model follows `src/graph_builder/entity_relations.py`,
`src/graph_builder/knowledge_graph.py` and `src/config.py`.
Python dicts are modelled as insertion-ordered association lists with
in-place overwrite (`dictInsert`); `pandas.unique` is modelled by `unique`
(first-occurrence de-duplication); floats are modelled as rationals.
Node identifiers `COMP_{idnum}` / `PKG_{name}` / `FUNC_{code}` / `PHY_{code}`
are modelled by the inductive `NodeId`, which is faithful because the four
string prefixes are pairwise distinct and the payload renderings are
injective, so the Python id strings are in bijection with `NodeId` values.
-/

set_option maxHeartbeats 1000000

/-- First-occurrence de-duplication, the order `pandas.Series.unique` uses. -/
def unique {α : Type} [DecidableEq α] : List α → List α
  | [] => []
  | a :: l => a :: (unique l).filter (fun b => b ≠ a)

/-- Python dict assignment `m[k] = v`: overwrite in place, else append. -/
def dictInsert {κ ν : Type} [DecidableEq κ] : List (κ × ν) → κ → ν → List (κ × ν)
  | [], k, v => [(k, v)]
  | (k', v') :: rest, k, v =>
    if k' = k then (k, v) :: rest else (k', v') :: dictInsert rest k v

/-- Python dict read `m.get(k)`. -/
def dictLookup {κ ν : Type} [DecidableEq κ] (m : List (κ × ν)) (k : κ) : Option ν :=
  (m.find? (fun p => p.1 = k)).map (fun p => p.2)

/-- A sequence of dict assignments applied in order. -/
def applyWrites {κ ν : Type} [DecidableEq κ] (m : List (κ × ν)) (ws : List (κ × ν)) :
    List (κ × ν) :=
  ws.foldl (fun m w => dictInsert m w.1 w.2) m

/-- `collections.defaultdict(list)` append `m[k].append(v)`. -/
def multiInsert {κ ν : Type} [DecidableEq κ] : List (κ × List ν) → κ → ν → List (κ × List ν)
  | [], k, v => [(k, [v])]
  | (k', vs) :: rest, k, v =>
    if k' = k then (k, vs ++ [v]) :: rest else (k', vs) :: multiInsert rest k v

/-- Python `set.add`: cardinality-faithful model of a set as a duplicate-free list. -/
def insertIfAbsent {α : Type} [DecidableEq α] (l : List α) (a : α) : List α :=
  if a ∈ l then l else l ++ [a]

/- ## Entity and relation model (`entity_relations.py`, `config.py`) -/

inductive NodeType
  | component
  | package
  | functionClass
  | physicalClass
  deriving DecidableEq

/-- `NodeType.value` of the Python enum. -/
def NodeType.value : NodeType → String
  | .component => "Component"
  | .package => "Package"
  | .functionClass => "FunctionClass"
  | .physicalClass => "PhysicalClass"

inductive RelationType
  | usesPackage
  | hasFunction
  | hasPhysicalType
  deriving DecidableEq

/-- `RelationType.value` of the Python enum. -/
def RelationType.value : RelationType → String
  | .usesPackage => "usesPackage"
  | .hasFunction => "hasFunction"
  | .hasPhysicalType => "hasPhysicalType"

/-- The dynamically-typed `relation` argument of `EntityFactory.create_edge`:
Python enforces no type, so a caller may pass a value outside the enum. -/
inductive RelValue
  | valid (r : RelationType)
  | invalid (s : String)
  deriving DecidableEq

/-- The string networkx stores for `edge.relation.value`; on a non-enum value the
model keeps the raw payload (the builder never constructs such an edge). -/
def RelValue.str : RelValue → String
  | .valid r => r.value
  | .invalid s => s

/-- Graph node identifiers, in bijection with the Python id strings
`COMP_{idnum}` / `PKG_{name}` / `FUNC_{code}` / `PHY_{code}`. -/
inductive NodeId
  | comp (idnum : Int)
  | pkg (name : String)
  | func (code : Int)
  | phy (code : Int)
  deriving DecidableEq

/-- Attribute values (ints, strings, floats-as-rationals, node ids). -/
inductive PValue
  | i (n : Int)
  | s (t : String)
  | q (x : ℚ)
  | nid (x : NodeId)
  deriving DecidableEq

structure Node where
  id : NodeId
  name : String
  node_type : NodeType
  label : String
  properties : List (String × PValue)
  deriving DecidableEq

/-- `Node.to_dict`. -/
def Node.to_dict (n : Node) : List (String × PValue) :=
  [("id", .nid n.id), ("name", .s n.name), ("type", .s n.node_type.value),
   ("label", .s n.label)] ++ n.properties

structure Edge where
  source : NodeId
  target : NodeId
  relation : RelValue
  weight : ℚ
  deriving DecidableEq

/-- `Edge.to_dict`. -/
def Edge.to_dict (e : Edge) : List (String × PValue) :=
  [("source", .nid e.source), ("target", .nid e.target), ("relation", .s e.relation.str),
   ("weight", .q e.weight)]

/-- `EntityFactory.create_component_node`. -/
def EntityFactory.create_component_node (idnum : Int) (name lname : String)
    (chip_l chip_w chip_h : ℚ) (mfr mpn : String) : Node :=
  { id := .comp idnum
    name := name
    node_type := .component
    label := if name.length > 15 then name.take 15 else name
    properties :=
      [("idnum", .i idnum), ("lname", .s lname), ("chip_l", .q chip_l),
       ("chip_w", .q chip_w), ("chip_h", .q chip_h), ("mfr", .s mfr),
       ("mpn", .s mpn), ("size", .q (20 + chip_l * 5))] }

/-- `EntityFactory.create_package_node`. -/
def EntityFactory.create_package_node (package_name : String) : Node :=
  { id := .pkg package_name
    name := package_name
    node_type := .package
    label := package_name
    properties := [("size", .q 30)] }

/-- `EntityFactory.create_function_class_node`. -/
def EntityFactory.create_function_class_node (func_class : Int) (class_name : String) : Node :=
  { id := .func func_class
    name := class_name
    node_type := .functionClass
    label := class_name
    properties := [("class_code", .i func_class), ("size", .q 40)] }

/-- `EntityFactory.create_physical_class_node`. -/
def EntityFactory.create_physical_class_node (phy_class : Int) (class_name : String) : Node :=
  { id := .phy phy_class
    name := class_name
    node_type := .physicalClass
    label := class_name
    properties := [("class_code", .i phy_class), ("size", .q 40)] }

/-- `EntityFactory.create_edge`: a bare constructor, no validation of `relation`. -/
def EntityFactory.create_edge (source target : NodeId) (relation : RelValue)
    (weight : ℚ) : Edge :=
  { source := source, target := target, relation := relation, weight := weight }

/-- `FUNCTION_CLASS_MAP` from `config.py`. -/
def FUNCTION_CLASS_MAP : List (Int × String) :=
  [(1, "Resistor"), (2, "Capacitor"), (7, "Inductor"), (11, "LED"),
   (12, "Diode"), (14, "IC/Transistor")]

/-- `PHYSICAL_CLASS_MAP` from `config.py`. -/
def PHYSICAL_CLASS_MAP : List (Int × String) :=
  [(1, "Passive"), (2, "Active"), (3, "Connector")]

/-- Python `dict.get(k, default)`. -/
def mapGetD (m : List (Int × String)) (k : Int) (dflt : String) : String :=
  (dictLookup m k).getD dflt

/- ## Input rows (the DataFrame columns the builder reads) -/

structure Row where
  IDNUM : Int
  NAME : String
  LNAME : String
  PhysicalClass : Int
  FunctionClass : Int
  C : String
  MFR : String
  MPN : String
  ChipL : ℚ
  ChipW : ℚ
  ChipH : ℚ
  deriving DecidableEq

/- ## The networkx directed graph (as used by `_build_networkx_graph`) -/

structure Graph where
  nodes : List (NodeId × List (String × PValue))
  edges : List (NodeId × NodeId × List (String × PValue))
  deriving DecidableEq

def Graph.hasNode (g : Graph) (k : NodeId) : Bool :=
  g.nodes.any (fun p => p.1 = k)

/-- `DiGraph.add_node` (all call sites pass a complete attribute dict, so
attribute update is modelled as replacement). -/
def Graph.add_node (g : Graph) (k : NodeId) (attrs : List (String × PValue)) : Graph :=
  if g.hasNode k then
    { g with nodes := g.nodes.map (fun p => if p.1 = k then (k, attrs) else p) }
  else
    { g with nodes := g.nodes ++ [(k, attrs)] }

/-- `DiGraph.add_edge`: silently auto-adds missing endpoints as bare nodes, and
overwrites the attributes of an existing `(source, target)` edge. -/
def Graph.add_edge (g : Graph) (u v : NodeId) (attrs : List (String × PValue)) : Graph :=
  let g1 := if g.hasNode u then g else { g with nodes := g.nodes ++ [(u, [])] }
  let g2 := if g1.hasNode v then g1 else { g1 with nodes := g1.nodes ++ [(v, [])] }
  if g2.edges.any (fun e => e.1 = u ∧ e.2.1 = v) then
    { g2 with edges := g2.edges.map (fun e => if e.1 = u ∧ e.2.1 = v then (u, v, attrs) else e) }
  else
    { g2 with edges := g2.edges ++ [(u, v, attrs)] }

/- ## KnowledgeGraphBuilder (`knowledge_graph.py`) -/

structure KnowledgeGraphBuilder where
  df : List Row
  nodes : List (NodeId × Node)
  edges : List Edge
  graph : Option Graph
  deriving DecidableEq

/-- `KnowledgeGraphBuilder.__init__`. -/
def KnowledgeGraphBuilder.init (df : List Row) : KnowledgeGraphBuilder :=
  { df := df, nodes := [], edges := [], graph := none }

/-- The component node built from one row (the factory call in
`_create_component_nodes`). -/
def componentNodeOf (row : Row) : Node :=
  EntityFactory.create_component_node row.IDNUM row.NAME row.LNAME
    row.ChipL row.ChipW row.ChipH row.MFR row.MPN

/-- `KnowledgeGraphBuilder._create_component_nodes`. -/
def KnowledgeGraphBuilder.create_component_nodes (b : KnowledgeGraphBuilder) :
    KnowledgeGraphBuilder :=
  let ns := b.df.foldl
    (fun ns row => dictInsert ns (componentNodeOf row).id (componentNodeOf row)) b.nodes
  { b with nodes := ns }

/-- `KnowledgeGraphBuilder._create_package_nodes` (`if pkg:` is non-empty-string
truthiness). -/
def KnowledgeGraphBuilder.create_package_nodes (b : KnowledgeGraphBuilder) :
    KnowledgeGraphBuilder :=
  let ns := (unique (b.df.map (fun r => r.C))).foldl
    (fun ns pkg =>
      if pkg ≠ "" then
        dictInsert ns (EntityFactory.create_package_node pkg).id
          (EntityFactory.create_package_node pkg)
      else ns)
    b.nodes
  { b with nodes := ns }

/-- `KnowledgeGraphBuilder._create_function_class_nodes`. -/
def KnowledgeGraphBuilder.create_function_class_nodes (b : KnowledgeGraphBuilder) :
    KnowledgeGraphBuilder :=
  let ns := (unique (b.df.map (fun r => r.FunctionClass))).foldl
    (fun ns fc =>
      dictInsert ns (NodeId.func fc)
        (EntityFactory.create_function_class_node fc
          (mapGetD FUNCTION_CLASS_MAP fc ("Class_" ++ toString fc))))
    b.nodes
  { b with nodes := ns }

/-- `KnowledgeGraphBuilder._create_physical_class_nodes`. -/
def KnowledgeGraphBuilder.create_physical_class_nodes (b : KnowledgeGraphBuilder) :
    KnowledgeGraphBuilder :=
  let ns := (unique (b.df.map (fun r => r.PhysicalClass))).foldl
    (fun ns pc =>
      dictInsert ns (NodeId.phy pc)
        (EntityFactory.create_physical_class_node pc
          (mapGetD PHYSICAL_CLASS_MAP pc ("Physical_" ++ toString pc))))
    b.nodes
  { b with nodes := ns }

/-- The edges `_create_relationships` appends for one row, in source order:
Component→Package (only when the package field is non-empty), then
Component→FunctionClass, then Component→PhysicalClass. -/
def rowEdges (row : Row) : List Edge :=
  (if row.C ≠ "" then
    [EntityFactory.create_edge (.comp row.IDNUM) (.pkg row.C) (.valid .usesPackage) 1]
  else []) ++
  [EntityFactory.create_edge (.comp row.IDNUM) (.func row.FunctionClass) (.valid .hasFunction) 1,
   EntityFactory.create_edge (.comp row.IDNUM) (.phy row.PhysicalClass)
     (.valid .hasPhysicalType) 1]

/-- `KnowledgeGraphBuilder._create_relationships`. -/
def KnowledgeGraphBuilder.create_relationships (b : KnowledgeGraphBuilder) :
    KnowledgeGraphBuilder :=
  let es := b.df.foldl (fun es row => es ++ rowEdges row) b.edges
  { b with edges := es }

/-- `KnowledgeGraphBuilder._build_networkx_graph`. -/
def KnowledgeGraphBuilder.build_networkx_graph (b : KnowledgeGraphBuilder) :
    KnowledgeGraphBuilder :=
  let g0 : Graph := { nodes := [], edges := [] }
  let g1 := b.nodes.foldl (fun g p => g.add_node p.1 p.2.to_dict) g0
  let g2 := b.edges.foldl
    (fun g e => g.add_edge e.source e.target
      [("relation", .s e.relation.str), ("weight", .q e.weight)]) g1
  { b with graph := some g2 }

/-- `KnowledgeGraphBuilder.build`. -/
def KnowledgeGraphBuilder.build (b : KnowledgeGraphBuilder) : KnowledgeGraphBuilder :=
  let b1 := b.create_component_nodes
  let b2 := b1.create_package_nodes
  let b3 := b2.create_function_class_nodes
  let b4 := b3.create_physical_class_nodes
  let b5 := b4.create_relationships
  b5.build_networkx_graph

/-- `KnowledgeGraphBuilder.get_nodes_by_type`. -/
def KnowledgeGraphBuilder.get_nodes_by_type (b : KnowledgeGraphBuilder) (t : NodeType) :
    List Node :=
  (b.nodes.map (fun p => p.2)).filter (fun n => n.node_type = t)

/-- `KnowledgeGraphBuilder.get_edges_by_relation` (the Python enum comparison
`e.relation == relation`). -/
def KnowledgeGraphBuilder.get_edges_by_relation (b : KnowledgeGraphBuilder)
    (r : RelationType) : List Edge :=
  b.edges.filter (fun e => e.relation = RelValue.valid r)

/-- `nx.density` for a directed graph (`0` on the degenerate cases). -/
def Graph.density (g : Graph) : ℚ :=
  let n : ℚ := g.nodes.length
  let m : ℚ := g.edges.length
  if g.nodes.length ≤ 1 then 0 else m / (n * (n - 1))

/-- The statistics record of `get_statistics`.  The two weak-connectivity
metrics of the source are not modelled; no claim concerns them. -/
structure Statistics where
  total_nodes : Nat
  total_edges : Nat
  node_types : List (String × Nat)
  relation_types : List (String × Nat)
  network_metrics : Option ℚ
  deriving DecidableEq

/-- `KnowledgeGraphBuilder.get_statistics` (`if self.graph:` falls back to
`Graph.__len__`, so a built but empty graph yields no network metrics). -/
def KnowledgeGraphBuilder.get_statistics (b : KnowledgeGraphBuilder) : Statistics :=
  { total_nodes := b.nodes.length
    total_edges := b.edges.length
    node_types :=
      [NodeType.component, NodeType.package, NodeType.functionClass,
       NodeType.physicalClass].map
        (fun nt => (nt.value, (b.get_nodes_by_type nt).length))
    relation_types :=
      [RelationType.usesPackage, RelationType.hasFunction,
       RelationType.hasPhysicalType].map
        (fun rt => (rt.value, (b.get_edges_by_relation rt).length))
    network_metrics :=
      match b.graph with
      | some g => if g.nodes.length ≠ 0 then some g.density else none
      | none => none }

/-- `KnowledgeGraphBuilder.get_subgraph_by_package`. -/
def KnowledgeGraphBuilder.get_subgraph_by_package (b : KnowledgeGraphBuilder)
    (package_name : String) : List NodeId :=
  if (dictLookup b.nodes (NodeId.pkg package_name)).isSome then
    (b.edges.filter
      (fun e => e.target = NodeId.pkg package_name ∧
        e.relation = RelValue.valid .usesPackage)).map (fun e => e.source)
  else []

/-- The assembled graph, `⟨[], []⟩` before any build. -/
def KnowledgeGraphBuilder.graphD (b : KnowledgeGraphBuilder) : Graph :=
  b.graph.getD { nodes := [], edges := [] }

/- ## Generic association-list (Python dict) lemmas -/

/-- The keys of an association list, in order. -/
def keysOf {κ ν : Type} (m : List (κ × ν)) : List κ := m.map Prod.fst

/-- The value the write sequence `ws` leaves at key `k` (last write wins). -/
def writeVal {κ ν : Type} [DecidableEq κ] : List (κ × ν) → κ → Option ν
  | [], _ => none
  | w :: ws, k =>
    match writeVal ws k with
    | some v => some v
    | none => if w.1 = k then some w.2 else none

theorem keysOf_nil {κ ν : Type} : keysOf ([] : List (κ × ν)) = [] := rfl

theorem keysOf_cons {κ ν : Type} (p : κ × ν) (m : List (κ × ν)) :
    keysOf (p :: m) = p.1 :: keysOf m := rfl

theorem keysOf_append {κ ν : Type} (m₁ m₂ : List (κ × ν)) :
    keysOf (m₁ ++ m₂) = keysOf m₁ ++ keysOf m₂ := List.map_append _ _ _

theorem dictLookup_nil {κ ν : Type} [DecidableEq κ] (k : κ) :
    dictLookup ([] : List (κ × ν)) k = none := rfl

theorem dictLookup_cons {κ ν : Type} [DecidableEq κ] (p : κ × ν) (m : List (κ × ν)) (k : κ) :
    dictLookup (p :: m) k = if p.1 = k then some p.2 else dictLookup m k := by
  by_cases h : p.1 = k
  · simp [dictLookup, List.find?_cons, h]
  · simp [dictLookup, List.find?_cons, h]

theorem dictInsert_cons {κ ν : Type} [DecidableEq κ] (p : κ × ν) (m : List (κ × ν))
    (k : κ) (v : ν) :
    dictInsert (p :: m) k v = if p.1 = k then (k, v) :: m else p :: dictInsert m k v := by
  cases p
  rfl

theorem writeVal_cons {κ ν : Type} [DecidableEq κ] (w : κ × ν) (ws : List (κ × ν)) (k : κ) :
    writeVal (w :: ws) k =
      match writeVal ws k with
      | some v => some v
      | none => if w.1 = k then some w.2 else none := rfl

theorem dictLookup_eq_none {κ ν : Type} [DecidableEq κ] (m : List (κ × ν)) (k : κ)
    (h : k ∉ keysOf m) : dictLookup m k = none := by
  induction m with
  | nil => rfl
  | cons p m ih =>
    rw [keysOf_cons, List.mem_cons, not_or] at h
    rw [dictLookup_cons, if_neg (fun he => h.1 he.symm)]
    exact ih h.2

theorem dictLookup_isSome_iff {κ ν : Type} [DecidableEq κ] (m : List (κ × ν)) (k : κ) :
    (dictLookup m k).isSome ↔ k ∈ keysOf m := by
  induction m with
  | nil => simp [dictLookup_nil, keysOf_nil]
  | cons p m ih =>
    rw [dictLookup_cons, keysOf_cons, List.mem_cons]
    by_cases h : p.1 = k
    · simp [h]
    · rw [if_neg h, ih]
      constructor
      · exact fun hm => Or.inr hm
      · rintro (he | hm)
        · exact absurd he.symm h
        · exact hm

theorem keys_dictInsert_of_mem {κ ν : Type} [DecidableEq κ] {m : List (κ × ν)} {k : κ}
    (v : ν) (h : k ∈ keysOf m) : keysOf (dictInsert m k v) = keysOf m := by
  induction m with
  | nil => simp [keysOf_nil] at h
  | cons p m ih =>
    rw [keysOf_cons, List.mem_cons] at h
    rw [dictInsert_cons]
    by_cases hk : p.1 = k
    · rw [if_pos hk, keysOf_cons, keysOf_cons, hk]
    · rw [if_neg hk, keysOf_cons, keysOf_cons,
        ih (h.resolve_left (fun he => hk he.symm))]

theorem keys_dictInsert_of_not_mem {κ ν : Type} [DecidableEq κ] {m : List (κ × ν)} {k : κ}
    (v : ν) (h : k ∉ keysOf m) : keysOf (dictInsert m k v) = keysOf m ++ [k] := by
  induction m with
  | nil => rfl
  | cons p m ih =>
    rw [keysOf_cons, List.mem_cons, not_or] at h
    rw [dictInsert_cons, if_neg (fun he => h.1 he.symm), keysOf_cons, keysOf_cons,
      ih h.2, List.cons_append]

theorem dictInsert_of_not_mem {κ ν : Type} [DecidableEq κ] {m : List (κ × ν)} {k : κ}
    (v : ν) (h : k ∉ keysOf m) : dictInsert m k v = m ++ [(k, v)] := by
  induction m with
  | nil => rfl
  | cons p m ih =>
    rw [keysOf_cons, List.mem_cons, not_or] at h
    rw [dictInsert_cons, if_neg (fun he => h.1 he.symm), ih h.2, List.cons_append]

theorem dictLookup_dictInsert {κ ν : Type} [DecidableEq κ] (m : List (κ × ν)) (k : κ)
    (v : ν) (k' : κ) :
    dictLookup (dictInsert m k v) k' = if k = k' then some v else dictLookup m k' := by
  induction m with
  | nil =>
    show dictLookup [(k, v)] k' = _
    rw [dictLookup_cons, dictLookup_nil]
  | cons p m ih =>
    rw [dictInsert_cons]
    by_cases hk : p.1 = k
    · rw [if_pos hk, dictLookup_cons, dictLookup_cons]
      by_cases h' : k = k'
      · rw [if_pos h', if_pos h']
      · rw [if_neg h', if_neg h', if_neg (hk ▸ h')]
    · rw [if_neg hk, dictLookup_cons, dictLookup_cons, ih]
      by_cases h' : p.1 = k'
      · rw [if_pos h', if_neg (fun he => hk (h'.trans he.symm)), if_pos h']
      · rw [if_neg h', if_neg h']

theorem mem_dictInsert {κ ν : Type} [DecidableEq κ] {m : List (κ × ν)} {k : κ} {v : ν}
    {p : κ × ν} (h : p ∈ dictInsert m k v) : p ∈ m ∨ p = (k, v) := by
  induction m with
  | nil =>
    rw [show dictInsert ([] : List (κ × ν)) k v = [(k, v)] from rfl] at h
    exact Or.inr (List.mem_singleton.mp h)
  | cons q m ih =>
    rw [dictInsert_cons] at h
    by_cases hk : q.1 = k
    · rw [if_pos hk, List.mem_cons] at h
      rcases h with h | h
      · exact Or.inr h
      · exact Or.inl (List.mem_cons_of_mem _ h)
    · rw [if_neg hk, List.mem_cons] at h
      rcases h with h | h
      · exact Or.inl (h ▸ List.mem_cons_self _ _)
      · rcases ih h with h' | h'
        · exact Or.inl (List.mem_cons_of_mem _ h')
        · exact Or.inr h'

theorem nodup_keys_dictInsert {κ ν : Type} [DecidableEq κ] {m : List (κ × ν)} (k : κ) (v : ν)
    (h : (keysOf m).Nodup) : (keysOf (dictInsert m k v)).Nodup := by
  by_cases hk : k ∈ keysOf m
  · rw [keys_dictInsert_of_mem v hk]; exact h
  · rw [keys_dictInsert_of_not_mem v hk]
    simpa [List.nodup_append] using ⟨h, hk⟩

theorem applyWrites_nil {κ ν : Type} [DecidableEq κ] (m : List (κ × ν)) :
    applyWrites m [] = m := rfl

theorem applyWrites_cons {κ ν : Type} [DecidableEq κ] (m : List (κ × ν)) (w : κ × ν)
    (ws : List (κ × ν)) :
    applyWrites m (w :: ws) = applyWrites (dictInsert m w.1 w.2) ws := rfl

theorem applyWrites_append {κ ν : Type} [DecidableEq κ] (m ws₁ ws₂ : List (κ × ν)) :
    applyWrites m (ws₁ ++ ws₂) = applyWrites (applyWrites m ws₁) ws₂ :=
  List.foldl_append _ _ _ _

theorem dictLookup_applyWrites {κ ν : Type} [DecidableEq κ] (m ws : List (κ × ν)) (k : κ) :
    dictLookup (applyWrites m ws) k =
      match writeVal ws k with
      | some v => some v
      | none => dictLookup m k := by
  induction ws generalizing m with
  | nil => rfl
  | cons w ws ih =>
    rw [applyWrites_cons, ih, writeVal_cons]
    cases writeVal ws k with
    | some v => rfl
    | none =>
      by_cases h : w.1 = k
      · simp [dictLookup_dictInsert, h]
      · simp [dictLookup_dictInsert, h]

theorem dictLookup_applyWrites_some {κ ν : Type} [DecidableEq κ] {ws : List (κ × ν)}
    {k : κ} {v : ν} (m : List (κ × ν)) (h : writeVal ws k = some v) :
    dictLookup (applyWrites m ws) k = some v := by
  rw [dictLookup_applyWrites, h]

theorem dictLookup_applyWrites_none {κ ν : Type} [DecidableEq κ] {ws : List (κ × ν)}
    {k : κ} (m : List (κ × ν)) (h : writeVal ws k = none) :
    dictLookup (applyWrites m ws) k = dictLookup m k := by
  rw [dictLookup_applyWrites, h]

theorem writeVal_eq_none {κ ν : Type} [DecidableEq κ] (ws : List (κ × ν)) (k : κ)
    (h : k ∉ keysOf ws) : writeVal ws k = none := by
  induction ws with
  | nil => rfl
  | cons w ws ih =>
    rw [keysOf_cons, List.mem_cons, not_or] at h
    have h1 : ¬ w.1 = k := fun he => h.1 he.symm
    rw [writeVal_cons, ih h.2]
    simp only [if_neg h1]

theorem writeVal_ne_none_of_mem {κ ν : Type} [DecidableEq κ] {ws : List (κ × ν)} {k : κ}
    (h : k ∈ keysOf ws) : writeVal ws k ≠ none := by
  induction ws with
  | nil => simp [keysOf_nil] at h
  | cons w ws ih =>
    rw [keysOf_cons, List.mem_cons] at h
    rw [writeVal_cons]
    cases hw : writeVal ws k with
    | some v => simp
    | none =>
      rcases h with h | h
      · simp [h.symm]
      · exact absurd hw (ih h)

theorem mem_applyWrites {κ ν : Type} [DecidableEq κ] {m ws : List (κ × ν)} {p : κ × ν}
    (h : p ∈ applyWrites m ws) : p ∈ m ∨ p ∈ ws := by
  induction ws generalizing m with
  | nil => exact Or.inl h
  | cons w ws ih =>
    rw [applyWrites_cons] at h
    rcases ih h with h' | h'
    · rcases mem_dictInsert h' with h'' | h''
      · exact Or.inl h''
      · exact Or.inr (by rw [h'']; exact (show (w.1, w.2) = w from rfl) ▸ List.mem_cons_self _ _)
    · exact Or.inr (List.mem_cons_of_mem _ h')

theorem keys_applyWrites_of_mem {κ ν : Type} [DecidableEq κ] {m ws : List (κ × ν)}
    (h : ∀ w ∈ ws, w.1 ∈ keysOf m) : keysOf (applyWrites m ws) = keysOf m := by
  induction ws generalizing m with
  | nil => rfl
  | cons w ws ih =>
    rw [applyWrites_cons, ih, keys_dictInsert_of_mem _ (h w (List.mem_cons_self _ _))]
    intro w' hw'
    rw [keys_dictInsert_of_mem _ (h w (List.mem_cons_self _ _))]
    exact h w' (List.mem_cons_of_mem _ hw')

theorem nodup_keys_applyWrites {κ ν : Type} [DecidableEq κ] {m : List (κ × ν)}
    (ws : List (κ × ν)) (h : (keysOf m).Nodup) : (keysOf (applyWrites m ws)).Nodup := by
  induction ws generalizing m with
  | nil => exact h
  | cons w ws ih => exact ih (nodup_keys_dictInsert _ _ h)

theorem applyWrites_fresh {κ ν : Type} [DecidableEq κ] {m ws : List (κ × ν)}
    (h : ∀ w ∈ ws, w.1 ∉ keysOf m) (hnd : (keysOf ws).Nodup) :
    applyWrites m ws = m ++ ws := by
  induction ws generalizing m with
  | nil => simp [applyWrites_nil]
  | cons w ws ih =>
    rw [keysOf_cons, List.nodup_cons] at hnd
    rw [applyWrites_cons, dictInsert_of_not_mem _ (h w (List.mem_cons_self _ _)), ih ?_ hnd.2]
    · simp
    · intro w' hw'
      rw [keysOf_append]
      simp only [List.mem_append, not_or]
      refine ⟨h w' (List.mem_cons_of_mem _ hw'), ?_⟩
      intro he
      rw [show keysOf [(w.1, w.2)] = [w.1] from rfl, List.mem_singleton] at he
      exact hnd.1 (he ▸ List.mem_map_of_mem Prod.fst hw')

theorem mem_keys_applyWrites_of_mem_keys {κ ν : Type} [DecidableEq κ] {ws : List (κ × ν)}
    (m : List (κ × ν)) {k : κ} (h : k ∈ keysOf ws) : k ∈ keysOf (applyWrites m ws) := by
  rw [← dictLookup_isSome_iff]
  cases hw : writeVal ws k with
  | some v => rw [dictLookup_applyWrites_some m hw]; rfl
  | none => exact absurd hw (writeVal_ne_none_of_mem h)

theorem dict_ext {κ ν : Type} [DecidableEq κ] {m₁ m₂ : List (κ × ν)}
    (hk : keysOf m₁ = keysOf m₂) (hnd : (keysOf m₁).Nodup)
    (hl : ∀ k, dictLookup m₁ k = dictLookup m₂ k) : m₁ = m₂ := by
  induction m₁ generalizing m₂ with
  | nil =>
    cases m₂ with
    | nil => rfl
    | cons q t => simp [keysOf_nil, keysOf_cons] at hk
  | cons p t₁ ih =>
    cases m₂ with
    | nil => simp [keysOf_nil, keysOf_cons] at hk
    | cons q t₂ =>
      rw [keysOf_cons, keysOf_cons] at hk
      have hk1 : p.1 = q.1 := List.head_eq_of_cons_eq hk
      have hk2 : keysOf t₁ = keysOf t₂ := List.tail_eq_of_cons_eq hk
      rw [keysOf_cons, List.nodup_cons] at hnd
      have hv : p.2 = q.2 := by
        have h0 := hl p.1
        rw [dictLookup_cons, if_pos rfl, dictLookup_cons, if_pos hk1.symm] at h0
        exact Option.some.inj h0
      have ht : t₁ = t₂ := by
        refine ih hk2 hnd.2 (fun k => ?_)
        by_cases hpk : p.1 = k
        · rw [dictLookup_eq_none t₁ k (hpk ▸ hnd.1),
            dictLookup_eq_none t₂ k (hpk ▸ hk2 ▸ hnd.1)]
        · have h0 := hl k
          rw [dictLookup_cons, if_neg hpk, dictLookup_cons, if_neg (hk1 ▸ hpk)] at h0
          exact h0
      have hp : p = q := Prod.ext hk1 hv
      rw [hp, ht]

theorem applyWrites_self {κ ν : Type} [DecidableEq κ] (m ws : List (κ × ν))
    (hnd : (keysOf m).Nodup) :
    applyWrites (applyWrites m ws) ws = applyWrites m ws := by
  refine dict_ext ?_ (nodup_keys_applyWrites _ (nodup_keys_applyWrites _ hnd)) (fun k => ?_)
  · exact keys_applyWrites_of_mem
      (fun w hw => mem_keys_applyWrites_of_mem_keys m (List.mem_map_of_mem Prod.fst hw))
  · cases hw : writeVal ws k with
    | some v => rw [dictLookup_applyWrites_some _ hw, dictLookup_applyWrites_some _ hw]
    | none => rw [dictLookup_applyWrites_none _ hw, dictLookup_applyWrites_none _ hw]

/- ## Lemmas about `unique` -/

theorem mem_unique {α : Type} [DecidableEq α] {l : List α} {a : α} :
    a ∈ unique l ↔ a ∈ l := by
  induction l with
  | nil => simp [unique]
  | cons b l ih =>
    rw [unique, List.mem_cons, List.mem_cons]
    by_cases h : a = b
    · simp [h]
    · simp only [List.mem_filter, decide_eq_true_eq]
      constructor
      · rintro (he | ⟨hm, _⟩)
        · exact Or.inl he
        · exact Or.inr (ih.mp hm)
      · rintro (he | hm)
        · exact Or.inl he
        · exact Or.inr ⟨ih.mpr hm, h⟩

theorem nodup_unique {α : Type} [DecidableEq α] (l : List α) : (unique l).Nodup := by
  induction l with
  | nil => simp [unique]
  | cons b l ih =>
    rw [unique, List.nodup_cons]
    refine ⟨fun hb => ?_, ih.filter _⟩
    rcases List.mem_filter.mp hb with ⟨_, hne⟩
    simp at hne

/- ## The write sequences `build` performs on the node dict -/

/-- The FunctionClass node built for one distinct code (the factory call in
`_create_function_class_nodes`, fallback name `Class_{code}`). -/
def funcNodeOf (fc : Int) : Node :=
  EntityFactory.create_function_class_node fc
    (mapGetD FUNCTION_CLASS_MAP fc ("Class_" ++ toString fc))

/-- The PhysicalClass node built for one distinct code (fallback
`Physical_{code}`). -/
def phyNodeOf (pc : Int) : Node :=
  EntityFactory.create_physical_class_node pc
    (mapGetD PHYSICAL_CLASS_MAP pc ("Physical_" ++ toString pc))

def compWrites (df : List Row) : List (NodeId × Node) :=
  df.map (fun r => (NodeId.comp r.IDNUM, componentNodeOf r))

def pkgWrites (df : List Row) : List (NodeId × Node) :=
  ((unique (df.map (fun r => r.C))).filter (fun c => c ≠ "")).map
    (fun c => (NodeId.pkg c, EntityFactory.create_package_node c))

def funcWrites (df : List Row) : List (NodeId × Node) :=
  (unique (df.map (fun r => r.FunctionClass))).map (fun fc => (NodeId.func fc, funcNodeOf fc))

def phyWrites (df : List Row) : List (NodeId × Node) :=
  (unique (df.map (fun r => r.PhysicalClass))).map (fun pc => (NodeId.phy pc, phyNodeOf pc))

def nodeWrites (df : List Row) : List (NodeId × Node) :=
  compWrites df ++ pkgWrites df ++ funcWrites df ++ phyWrites df

/-- All edges `_create_relationships` appends, row by row. -/
def edgesOf (df : List Row) : List Edge := (df.map rowEdges).flatten

theorem create_component_nodes_eq (b : KnowledgeGraphBuilder) :
    b.create_component_nodes = { b with nodes := applyWrites b.nodes (compWrites b.df) } := by
  unfold KnowledgeGraphBuilder.create_component_nodes compWrites applyWrites
  rw [List.foldl_map]
  rfl

theorem pkg_foldl_eq (l : List String) (m : List (NodeId × Node)) :
    l.foldl
      (fun ns pkg =>
        if pkg ≠ "" then
          dictInsert ns (EntityFactory.create_package_node pkg).id
            (EntityFactory.create_package_node pkg)
        else ns) m
      = applyWrites m ((l.filter (fun c => c ≠ "")).map
          (fun c => (NodeId.pkg c, EntityFactory.create_package_node c))) := by
  induction l generalizing m with
  | nil => rfl
  | cons a l ih =>
    rw [List.foldl_cons, List.filter_cons]
    by_cases h : a ≠ ""
    · rw [if_pos h, decide_eq_true h, if_pos rfl, List.map_cons, applyWrites_cons]
      exact ih _
    · rw [if_neg h, decide_eq_false h, if_neg Bool.false_ne_true]
      exact ih m

theorem create_package_nodes_eq (b : KnowledgeGraphBuilder) :
    b.create_package_nodes = { b with nodes := applyWrites b.nodes (pkgWrites b.df) } := by
  unfold KnowledgeGraphBuilder.create_package_nodes pkgWrites
  rw [pkg_foldl_eq]

theorem create_function_class_nodes_eq (b : KnowledgeGraphBuilder) :
    b.create_function_class_nodes =
      { b with nodes := applyWrites b.nodes (funcWrites b.df) } := by
  unfold KnowledgeGraphBuilder.create_function_class_nodes funcWrites funcNodeOf applyWrites
  rw [List.foldl_map]

theorem create_physical_class_nodes_eq (b : KnowledgeGraphBuilder) :
    b.create_physical_class_nodes =
      { b with nodes := applyWrites b.nodes (phyWrites b.df) } := by
  unfold KnowledgeGraphBuilder.create_physical_class_nodes phyWrites phyNodeOf applyWrites
  rw [List.foldl_map]

theorem edges_foldl_eq (l : List Row) (es : List Edge) :
    l.foldl (fun es row => es ++ rowEdges row) es = es ++ (l.map rowEdges).flatten := by
  induction l generalizing es with
  | nil => simp
  | cons r l ih =>
    rw [List.foldl_cons, ih, List.map_cons, List.flatten_cons, List.append_assoc]

theorem create_relationships_eq (b : KnowledgeGraphBuilder) :
    b.create_relationships = { b with edges := b.edges ++ edgesOf b.df } := by
  unfold KnowledgeGraphBuilder.create_relationships edgesOf
  rw [edges_foldl_eq]

/-- The networkx graph assembled from a node dict and an edge list
(the two loops of `_build_networkx_graph`). -/
def graphFrom (nodes : List (NodeId × Node)) (edges : List Edge) : Graph :=
  let g1 := nodes.foldl (fun g p => g.add_node p.1 p.2.to_dict) { nodes := [], edges := [] }
  edges.foldl
    (fun g e => g.add_edge e.source e.target
      [("relation", .s e.relation.str), ("weight", .q e.weight)]) g1

theorem build_networkx_graph_eq (b : KnowledgeGraphBuilder) :
    b.build_networkx_graph = { b with graph := some (graphFrom b.nodes b.edges) } := rfl

theorem build_unfold (b : KnowledgeGraphBuilder) :
    b.build = { b with
      nodes := applyWrites b.nodes (nodeWrites b.df),
      edges := b.edges ++ edgesOf b.df,
      graph := some (graphFrom (applyWrites b.nodes (nodeWrites b.df))
        (b.edges ++ edgesOf b.df)) } := by
  simp only [KnowledgeGraphBuilder.build, create_component_nodes_eq, create_package_nodes_eq,
    create_function_class_nodes_eq, create_physical_class_nodes_eq, create_relationships_eq,
    build_networkx_graph_eq, nodeWrites, applyWrites_append]

/- ## Shape of the node dict after `build` -/

theorem keys_compWrites_shape {df : List Row} {k : NodeId}
    (h : k ∈ keysOf (applyWrites [] (compWrites df))) : ∃ i, k = NodeId.comp i := by
  rcases List.mem_map.mp h with ⟨p, hp, hk⟩
  rcases mem_applyWrites hp with h' | h'
  · simp at h'
  · rcases List.mem_map.mp h' with ⟨r, _, hr⟩
    exact ⟨r.IDNUM, by rw [← hk, ← hr]⟩

theorem keys_pkgWrites {df : List Row} :
    keysOf (pkgWrites df) =
      ((unique (df.map (fun r => r.C))).filter (fun c => c ≠ "")).map NodeId.pkg := by
  unfold pkgWrites keysOf
  rw [List.map_map]
  rfl

theorem keys_funcWrites {df : List Row} :
    keysOf (funcWrites df) = (unique (df.map (fun r => r.FunctionClass))).map NodeId.func := by
  unfold funcWrites keysOf
  rw [List.map_map]
  rfl

theorem keys_phyWrites {df : List Row} :
    keysOf (phyWrites df) = (unique (df.map (fun r => r.PhysicalClass))).map NodeId.phy := by
  unfold phyWrites keysOf
  rw [List.map_map]
  rfl

theorem nodup_keys_pkgWrites (df : List Row) : (keysOf (pkgWrites df)).Nodup := by
  rw [keys_pkgWrites]
  exact ((nodup_unique _).filter _).map (fun a b h => NodeId.pkg.inj h)

theorem nodup_keys_funcWrites (df : List Row) : (keysOf (funcWrites df)).Nodup := by
  rw [keys_funcWrites]
  exact (nodup_unique _).map (fun a b h => NodeId.func.inj h)

theorem nodup_keys_phyWrites (df : List Row) : (keysOf (phyWrites df)).Nodup := by
  rw [keys_phyWrites]
  exact (nodup_unique _).map (fun a b h => NodeId.phy.inj h)

/-- The node dict `build` produces decomposes into four contiguous segments:
the component dict, then the package, function-class and physical-class
entries (their keys are fresh thanks to the id prefixes). -/
theorem built_nodes_decomp (df : List Row) :
    (KnowledgeGraphBuilder.init df).build.nodes =
      applyWrites [] (compWrites df) ++ pkgWrites df ++ funcWrites df ++ phyWrites df := by
  rw [build_unfold]
  show applyWrites [] (nodeWrites df) = _
  rw [nodeWrites, applyWrites_append, applyWrites_append, applyWrites_append]
  rw [applyWrites_fresh (m := applyWrites [] (compWrites df)) ?hp (nodup_keys_pkgWrites df)]
  case hp =>
    intro w hw hmem
    rcases keys_compWrites_shape hmem with ⟨i, hi⟩
    rcases List.mem_map.mp hw with ⟨c, _, hc⟩
    rw [← hc] at hi
    exact NodeId.noConfusion hi
  rw [applyWrites_fresh (m := applyWrites [] (compWrites df) ++ pkgWrites df) ?hf
    (nodup_keys_funcWrites df)]
  case hf =>
    intro w hw hmem
    rcases List.mem_map.mp hw with ⟨fc, _, hc⟩
    rw [keysOf_append, List.mem_append] at hmem
    rcases hmem with hmem | hmem
    · rcases keys_compWrites_shape hmem with ⟨i, hi⟩
      rw [← hc] at hi
      exact NodeId.noConfusion hi
    · rw [keys_pkgWrites] at hmem
      rcases List.mem_map.mp hmem with ⟨c, _, hcc⟩
      rw [← hc] at hcc
      exact NodeId.noConfusion hcc
  rw [applyWrites_fresh ?hy (nodup_keys_phyWrites df)]
  case hy =>
    intro w hw hmem
    rcases List.mem_map.mp hw with ⟨pc, _, hc⟩
    rw [keysOf_append, keysOf_append, List.mem_append, List.mem_append] at hmem
    rcases hmem with (hmem | hmem) | hmem
    · rcases keys_compWrites_shape hmem with ⟨i, hi⟩
      rw [← hc] at hi
      exact NodeId.noConfusion hi
    · rw [keys_pkgWrites] at hmem
      rcases List.mem_map.mp hmem with ⟨c, _, hcc⟩
      rw [← hc] at hcc
      exact NodeId.noConfusion hcc
    · rw [keys_funcWrites] at hmem
      rcases List.mem_map.mp hmem with ⟨c, _, hcc⟩
      rw [← hc] at hcc
      exact NodeId.noConfusion hcc

theorem built_edges_eq (df : List Row) :
    (KnowledgeGraphBuilder.init df).build.edges = edgesOf df := by
  rw [build_unfold]
  rfl

theorem built_graph_eq (df : List Row) :
    (KnowledgeGraphBuilder.init df).build.graph =
      some (graphFrom (KnowledgeGraphBuilder.init df).build.nodes (edgesOf df)) := by
  rw [build_unfold]
  rfl

/- ## Node types per segment, and the node-count lemmas -/

theorem node_type_compSeg {df : List Row} {p : NodeId × Node}
    (h : p ∈ applyWrites [] (compWrites df)) : p.2.node_type = .component := by
  rcases mem_applyWrites h with h' | h'
  · simp at h'
  · rcases List.mem_map.mp h' with ⟨r, _, hr⟩
    rw [← hr]
    rfl

theorem node_type_pkgWrites {df : List Row} {p : NodeId × Node} (h : p ∈ pkgWrites df) :
    p.2.node_type = .package := by
  rcases List.mem_map.mp h with ⟨c, _, hc⟩
  rw [← hc]
  rfl

theorem node_type_funcWrites {df : List Row} {p : NodeId × Node} (h : p ∈ funcWrites df) :
    p.2.node_type = .functionClass := by
  rcases List.mem_map.mp h with ⟨c, _, hc⟩
  rw [← hc]
  rfl

theorem node_type_phyWrites {df : List Row} {p : NodeId × Node} (h : p ∈ phyWrites df) :
    p.2.node_type = .physicalClass := by
  rcases List.mem_map.mp h with ⟨c, _, hc⟩
  rw [← hc]
  rfl

/-- A filter for one node type applied to a segment whose values all have
another type yields nothing; applied to its own type it keeps everything. -/
theorem filter_type_map {t : NodeType} {s : List (NodeId × Node)}
    (h : ∀ p ∈ s, p.2.node_type ≠ t) :
    (s.map (fun p => p.2)).filter (fun n => n.node_type = t) = [] := by
  rw [List.filter_eq_nil_iff]
  intro n hn
  rcases List.mem_map.mp hn with ⟨p, hp, he⟩
  simp [← he, h p hp]

theorem filter_type_map_self {t : NodeType} {s : List (NodeId × Node)}
    (h : ∀ p ∈ s, p.2.node_type = t) :
    (s.map (fun p => p.2)).filter (fun n => n.node_type = t) = s.map (fun p => p.2) := by
  rw [List.filter_eq_self]
  intro n hn
  rcases List.mem_map.mp hn with ⟨p, hp, he⟩
  simp [← he, h p hp]

theorem get_nodes_by_type_built (df : List Row) (t : NodeType) :
    (KnowledgeGraphBuilder.init df).build.get_nodes_by_type t =
      ((applyWrites [] (compWrites df)).map (fun p => p.2)).filter
          (fun n => n.node_type = t)
        ++ ((pkgWrites df).map (fun p => p.2)).filter (fun n => n.node_type = t)
        ++ ((funcWrites df).map (fun p => p.2)).filter (fun n => n.node_type = t)
        ++ ((phyWrites df).map (fun p => p.2)).filter (fun n => n.node_type = t) := by
  unfold KnowledgeGraphBuilder.get_nodes_by_type
  rw [built_nodes_decomp, List.map_append, List.map_append, List.map_append,
    List.filter_append, List.filter_append, List.filter_append]

theorem count_package_nodes (df : List Row) :
    ((KnowledgeGraphBuilder.init df).build.get_nodes_by_type .package).length =
      ((unique (df.map (fun r => r.C))).filter (fun c => c ≠ "")).length := by
  rw [get_nodes_by_type_built,
    filter_type_map (fun p hp => by rw [node_type_compSeg hp]; intro h; cases h),
    filter_type_map_self (fun p hp => node_type_pkgWrites hp),
    filter_type_map (fun p hp => by rw [node_type_funcWrites hp]; intro h; cases h),
    filter_type_map (fun p hp => by rw [node_type_phyWrites hp]; intro h; cases h)]
  simp [pkgWrites]

theorem count_function_class_nodes (df : List Row) :
    ((KnowledgeGraphBuilder.init df).build.get_nodes_by_type .functionClass).length =
      (unique (df.map (fun r => r.FunctionClass))).length := by
  rw [get_nodes_by_type_built,
    filter_type_map (fun p hp => by rw [node_type_compSeg hp]; intro h; cases h),
    filter_type_map (fun p hp => by rw [node_type_pkgWrites hp]; intro h; cases h),
    filter_type_map_self (fun p hp => node_type_funcWrites hp),
    filter_type_map (fun p hp => by rw [node_type_phyWrites hp]; intro h; cases h)]
  simp [funcWrites]

theorem count_physical_class_nodes (df : List Row) :
    ((KnowledgeGraphBuilder.init df).build.get_nodes_by_type .physicalClass).length =
      (unique (df.map (fun r => r.PhysicalClass))).length := by
  rw [get_nodes_by_type_built,
    filter_type_map (fun p hp => by rw [node_type_compSeg hp]; intro h; cases h),
    filter_type_map (fun p hp => by rw [node_type_pkgWrites hp]; intro h; cases h),
    filter_type_map (fun p hp => by rw [node_type_funcWrites hp]; intro h; cases h),
    filter_type_map_self (fun p hp => node_type_phyWrites hp)]
  simp [phyWrites]

theorem get_component_nodes_built (df : List Row) :
    (KnowledgeGraphBuilder.init df).build.get_nodes_by_type .component =
      (applyWrites [] (compWrites df)).map (fun p => p.2) := by
  rw [get_nodes_by_type_built,
    filter_type_map_self (fun p hp => node_type_compSeg hp),
    filter_type_map (fun p hp => by rw [node_type_pkgWrites hp]; intro h; cases h),
    filter_type_map (fun p hp => by rw [node_type_funcWrites hp]; intro h; cases h),
    filter_type_map (fun p hp => by rw [node_type_phyWrites hp]; intro h; cases h)]
  simp

theorem rowEdges_length (r : Row) : (rowEdges r).length = if r.C = "" then 2 else 3 := by
  unfold rowEdges
  by_cases h : r.C = ""
  · simp [h]
  · simp [h]

theorem built_edges_length (df : List Row) :
    (KnowledgeGraphBuilder.init df).build.edges.length =
      (df.map (fun r => if r.C = "" then 2 else 3)).sum := by
  rw [built_edges_eq, edgesOf, List.length_flatten, List.map_map]
  congr 1
  exact List.map_congr_left (fun r _ => rowEdges_length r)

/- ## Edge-pair uniqueness in the assembled graph -/

/-- The `(source, target)` pairs of the assembled graph's edges, in order. -/
def pairsOf (g : Graph) : List (NodeId × NodeId) := g.edges.map (fun e => (e.1, e.2.1))

theorem edges_add_node (g : Graph) (k : NodeId) (attrs : List (String × PValue)) :
    (g.add_node k attrs).edges = g.edges := by
  unfold Graph.add_node
  split <;> rfl

theorem mem_pairsOf {g : Graph} {u v : NodeId} :
    (u, v) ∈ pairsOf g ↔ ∃ e ∈ g.edges, e.1 = u ∧ e.2.1 = v := by
  unfold pairsOf
  rw [List.mem_map]
  constructor
  · rintro ⟨e, he, hp⟩
    exact ⟨e, he, congrArg Prod.fst hp, congrArg Prod.snd hp⟩
  · rintro ⟨e, he, h1, h2⟩
    exact ⟨e, he, by rw [h1, h2]⟩

theorem hasPair_any {g : Graph} {u v : NodeId} :
    g.edges.any (fun e => e.1 = u ∧ e.2.1 = v) = true ↔ (u, v) ∈ pairsOf g := by
  rw [List.any_eq_true, mem_pairsOf]
  constructor
  · rintro ⟨e, he, hp⟩
    exact ⟨e, he, of_decide_eq_true hp⟩
  · rintro ⟨e, he, hp⟩
    exact ⟨e, he, decide_eq_true hp⟩

/-- The endpoint auto-creation step of `add_edge` (adds a bare node if absent). -/
def nodeAdd1 (g : Graph) (u : NodeId) : Graph :=
  if g.hasNode u then g else { g with nodes := g.nodes ++ [(u, [])] }

theorem edges_nodeAdd1 (g : Graph) (u : NodeId) : (nodeAdd1 g u).edges = g.edges := by
  unfold nodeAdd1
  split <;> rfl

theorem pairsOf_eq_of_edges_eq {g' g : Graph} (h : g'.edges = g.edges) :
    pairsOf g' = pairsOf g := by
  unfold pairsOf
  rw [h]

theorem add_edge_body (g' : Graph) (u v : NodeId) (attrs : List (String × PValue)) :
    pairsOf (if g'.edges.any (fun e => e.1 = u ∧ e.2.1 = v) then
        { g' with edges := g'.edges.map (fun e => if e.1 = u ∧ e.2.1 = v then (u, v, attrs) else e) }
      else { g' with edges := g'.edges ++ [(u, v, attrs)] }) =
      if (u, v) ∈ pairsOf g' then pairsOf g' else pairsOf g' ++ [(u, v)] := by
  by_cases hmem : (u, v) ∈ pairsOf g'
  · rw [if_pos hmem, if_pos (hasPair_any.mpr hmem)]
    show (g'.edges.map (fun e => if e.1 = u ∧ e.2.1 = v then (u, v, attrs) else e)).map
        (fun e => (e.1, e.2.1)) = pairsOf g'
    rw [List.map_map]
    refine List.map_congr_left (fun e _ => ?_)
    by_cases he : e.1 = u ∧ e.2.1 = v
    · simp [he.1, he.2, he]
    · simp [he]
  · rw [if_neg hmem, if_neg (fun h => hmem (hasPair_any.mp h))]
    show (g'.edges ++ [(u, v, attrs)]).map (fun e => (e.1, e.2.1)) = pairsOf g' ++ [(u, v)]
    rw [List.map_append]
    rfl

/-- `add_edge` either overwrites the attributes of the existing
`(source, target)` edge — leaving the pair list unchanged — or appends the
new pair at the end; it never duplicates a pair. -/
theorem pairs_add_edge (g : Graph) (u v : NodeId) (attrs : List (String × PValue)) :
    pairsOf (g.add_edge u v attrs) =
      if (u, v) ∈ pairsOf g then pairsOf g else pairsOf g ++ [(u, v)] := by
  have h2 : (nodeAdd1 (nodeAdd1 g u) v).edges = g.edges := by
    rw [edges_nodeAdd1, edges_nodeAdd1]
  have hp : pairsOf (nodeAdd1 (nodeAdd1 g u) v) = pairsOf g := pairsOf_eq_of_edges_eq h2
  show pairsOf
      (if (nodeAdd1 (nodeAdd1 g u) v).edges.any (fun e => e.1 = u ∧ e.2.1 = v) then
        { nodeAdd1 (nodeAdd1 g u) v with
          edges := (nodeAdd1 (nodeAdd1 g u) v).edges.map
            (fun e => if e.1 = u ∧ e.2.1 = v then (u, v, attrs) else e) }
      else
        { nodeAdd1 (nodeAdd1 g u) v with
          edges := (nodeAdd1 (nodeAdd1 g u) v).edges ++ [(u, v, attrs)] }) = _
  rw [add_edge_body (nodeAdd1 (nodeAdd1 g u) v) u v attrs, hp]

theorem nodup_pairs_add_edge (g : Graph) (u v : NodeId) (attrs : List (String × PValue))
    (h : (pairsOf g).Nodup) : (pairsOf (g.add_edge u v attrs)).Nodup := by
  rw [pairs_add_edge]
  split
  · exact h
  · next hmem => simp [List.nodup_append, h, hmem]

theorem edges_fold_add_node (ns : List (NodeId × Node)) (g : Graph) :
    (ns.foldl (fun g p => g.add_node p.1 p.2.to_dict) g).edges = g.edges := by
  induction ns generalizing g with
  | nil => rfl
  | cons p ns ih => rw [List.foldl_cons, ih, edges_add_node]

theorem nodup_pairs_fold_add_edge (es : List Edge) (g : Graph)
    (h : (pairsOf g).Nodup) :
    (pairsOf (es.foldl
      (fun g e => g.add_edge e.source e.target
        [("relation", .s e.relation.str), ("weight", .q e.weight)]) g)).Nodup := by
  induction es generalizing g with
  | nil => exact h
  | cons e es ih => exact ih _ (nodup_pairs_add_edge _ _ _ _ h)

/-- Pair uniqueness is an invariant of every assembled graph. -/
theorem nodup_pairs_graphFrom (nodes : List (NodeId × Node)) (edges : List Edge) :
    (pairsOf (graphFrom nodes edges)).Nodup := by
  unfold graphFrom
  refine nodup_pairs_fold_add_edge _ _ ?_
  unfold pairsOf
  rw [edges_fold_add_node]
  exact List.nodup_nil

theorem nodup_pairs_built (df : List Row) :
    (pairsOf (KnowledgeGraphBuilder.init df).build.graphD).Nodup := by
  have h := built_graph_eq df
  unfold KnowledgeGraphBuilder.graphD
  rw [h]
  exact nodup_pairs_graphFrom _ _

/- ## Referential integrity of the built edge list -/

theorem keys_compWrites (df : List Row) :
    keysOf (compWrites df) = df.map (fun r => NodeId.comp r.IDNUM) := by
  unfold compWrites keysOf
  rw [List.map_map]
  rfl

theorem built_keys (df : List Row) :
    keysOf (KnowledgeGraphBuilder.init df).build.nodes =
      keysOf (applyWrites [] (compWrites df)) ++ keysOf (pkgWrites df) ++
        keysOf (funcWrites df) ++ keysOf (phyWrites df) := by
  rw [built_nodes_decomp, keysOf_append, keysOf_append, keysOf_append]

theorem source_key_built {df : List Row} {r : Row} (hr : r ∈ df) :
    NodeId.comp r.IDNUM ∈ keysOf (KnowledgeGraphBuilder.init df).build.nodes := by
  rw [built_keys]
  refine List.mem_append.mpr (Or.inl (List.mem_append.mpr (Or.inl (List.mem_append.mpr
    (Or.inl ?_)))))
  exact mem_keys_applyWrites_of_mem_keys []
    (by rw [keys_compWrites]; exact List.mem_map_of_mem _ hr)

theorem pkg_key_built {df : List Row} {r : Row} (hr : r ∈ df) (hc : r.C ≠ "") :
    NodeId.pkg r.C ∈ keysOf (KnowledgeGraphBuilder.init df).build.nodes := by
  rw [built_keys]
  refine List.mem_append.mpr (Or.inl (List.mem_append.mpr (Or.inl (List.mem_append.mpr
    (Or.inr ?_)))))
  rw [keys_pkgWrites]
  refine List.mem_map_of_mem _ (List.mem_filter.mpr ?_)
  exact ⟨mem_unique.mpr (List.mem_map_of_mem _ hr), decide_eq_true hc⟩

theorem func_key_built {df : List Row} {r : Row} (hr : r ∈ df) :
    NodeId.func r.FunctionClass ∈ keysOf (KnowledgeGraphBuilder.init df).build.nodes := by
  rw [built_keys]
  refine List.mem_append.mpr (Or.inl (List.mem_append.mpr (Or.inr ?_)))
  rw [keys_funcWrites]
  exact List.mem_map_of_mem _ (mem_unique.mpr (List.mem_map_of_mem _ hr))

theorem phy_key_built {df : List Row} {r : Row} (hr : r ∈ df) :
    NodeId.phy r.PhysicalClass ∈ keysOf (KnowledgeGraphBuilder.init df).build.nodes := by
  rw [built_keys]
  refine List.mem_append.mpr (Or.inr ?_)
  rw [keys_phyWrites]
  exact List.mem_map_of_mem _ (mem_unique.mpr (List.mem_map_of_mem _ hr))

theorem mem_rowEdges {r : Row} {e : Edge} (h : e ∈ rowEdges r) :
    (r.C ≠ "" ∧
        e = EntityFactory.create_edge (.comp r.IDNUM) (.pkg r.C) (.valid .usesPackage) 1) ∨
      e = EntityFactory.create_edge (.comp r.IDNUM) (.func r.FunctionClass)
        (.valid .hasFunction) 1 ∨
      e = EntityFactory.create_edge (.comp r.IDNUM) (.phy r.PhysicalClass)
        (.valid .hasPhysicalType) 1 := by
  unfold rowEdges at h
  by_cases hc : r.C ≠ ""
  · rw [if_pos hc] at h
    simp only [List.cons_append, List.nil_append, List.mem_cons, List.not_mem_nil,
      or_false] at h
    rcases h with h | h | h
    · exact Or.inl ⟨hc, h⟩
    · exact Or.inr (Or.inl h)
    · exact Or.inr (Or.inr h)
  · rw [if_neg hc] at h
    simp only [List.nil_append, List.mem_cons, List.not_mem_nil, or_false] at h
    rcases h with h | h
    · exact Or.inr (Or.inl h)
    · exact Or.inr (Or.inr h)

theorem mem_built_edges {df : List Row} {e : Edge}
    (h : e ∈ (KnowledgeGraphBuilder.init df).build.edges) : ∃ r ∈ df, e ∈ rowEdges r := by
  rw [built_edges_eq, edgesOf] at h
  rcases List.mem_flatten.mp h with ⟨l, hl, hel⟩
  rcases List.mem_map.mp hl with ⟨r, hr, hrl⟩
  exact ⟨r, hr, hrl ▸ hel⟩

/-- Every edge `build` creates has both endpoints present in the node dict;
no input can make an edge dangle. -/
theorem built_edges_endpoints (df : List Row) :
    (KnowledgeGraphBuilder.init df).build.edges.all
      (fun e => decide (e.source ∈ keysOf (KnowledgeGraphBuilder.init df).build.nodes) &&
        decide (e.target ∈ keysOf (KnowledgeGraphBuilder.init df).build.nodes)) = true := by
  rw [List.all_eq_true]
  intro e he
  rcases mem_built_edges he with ⟨r, hr, her⟩
  rw [Bool.and_eq_true, decide_eq_true_eq, decide_eq_true_eq]
  rcases mem_rowEdges her with ⟨hc, hee⟩ | hee | hee
  · rw [hee]
    exact ⟨source_key_built hr, pkg_key_built hr hc⟩
  · rw [hee]
    exact ⟨source_key_built hr, func_key_built hr⟩
  · rw [hee]
    exact ⟨source_key_built hr, phy_key_built hr⟩

/- ## Claim theorems for the builder -/

theorem stat_total_edges (b : KnowledgeGraphBuilder) :
    b.get_statistics.total_edges = b.edges.length := rfl

def row0 : Row :=
  { IDNUM := 1, NAME := "R1", LNAME := "res", PhysicalClass := 1, FunctionClass := 1,
    C := "0402", MFR := "", MPN := "", ChipL := 1, ChipW := 1, ChipH := 1 }

/-- C1 counterexample: on the one-row input `row0`, the first `build()` leaves
3 edges but a second `build()` on the same instance leaves 6 — the edge list is
appended to, not reset, so the statistics of the two builds differ. -/
theorem second_build_duplicates_edges :
    (KnowledgeGraphBuilder.init [row0]).build.build.edges.length = 6 ∧
      (KnowledgeGraphBuilder.init [row0]).build.edges.length = 3 ∧
      (KnowledgeGraphBuilder.init [row0]).build.build.get_statistics.total_edges ≠
        (KnowledgeGraphBuilder.init [row0]).build.get_statistics.total_edges := by
  refine ⟨?_, ?_, ?_⟩ <;> decide

/-- C1 amended: a second `build()` on the same instance rebuilds the node dict
to an identical state (each keyed insert overwrites with an equal value), but
appends a second full copy of the edge list, so the edge list and the edge
statistics double instead of being idempotent. -/
theorem second_build_state (df : List Row) :
    (KnowledgeGraphBuilder.init df).build.build.nodes =
        (KnowledgeGraphBuilder.init df).build.nodes ∧
      (KnowledgeGraphBuilder.init df).build.build.edges =
        (KnowledgeGraphBuilder.init df).build.edges ++
          (KnowledgeGraphBuilder.init df).build.edges ∧
      (KnowledgeGraphBuilder.init df).build.build.get_statistics.total_edges =
        2 * (KnowledgeGraphBuilder.init df).build.get_statistics.total_edges := by
  have hdf : (KnowledgeGraphBuilder.init df).build.df = df := by
    rw [build_unfold]
    rfl
  have hnodes : (KnowledgeGraphBuilder.init df).build.nodes =
      applyWrites [] (nodeWrites df) := by
    rw [build_unfold]
    rfl
  have h1 : (KnowledgeGraphBuilder.init df).build.build.nodes =
      (KnowledgeGraphBuilder.init df).build.nodes := by
    rw [build_unfold ((KnowledgeGraphBuilder.init df).build), hdf, hnodes]
    exact applyWrites_self [] (nodeWrites df) List.nodup_nil
  have h2 : (KnowledgeGraphBuilder.init df).build.build.edges =
      (KnowledgeGraphBuilder.init df).build.edges ++
        (KnowledgeGraphBuilder.init df).build.edges := by
    rw [build_unfold ((KnowledgeGraphBuilder.init df).build), hdf]
    show (KnowledgeGraphBuilder.init df).build.edges ++ edgesOf df = _
    rw [built_edges_eq]
  refine ⟨h1, h2, ?_⟩
  rw [stat_total_edges, stat_total_edges, h2, List.length_append, two_mul]

def danglingBuilder : KnowledgeGraphBuilder :=
  { df := [], nodes := [],
    edges := [EntityFactory.create_edge (.comp 1) (.pkg "X") (.valid .usesPackage) 1],
    graph := none }

/-- C2 counterexample: the assembly step named by the claim, applied to a
builder state whose single edge targets `PKG_X` while the node dict is empty,
silently auto-creates both endpoints as bare nodes and keeps the edge — there
is no `MissingNodeError` anywhere in the code, and no error path at all. -/
theorem dangling_edge_added_silently :
    danglingBuilder.build_networkx_graph.graph =
        some { nodes := [(.comp 1, []), (.pkg "X", [])],
               edges := [(.comp 1, .pkg "X",
                 [("relation", .s "usesPackage"), ("weight", .q 1)])] } ∧
      danglingBuilder.nodes = [] := ⟨rfl, rfl⟩

/-- C2 amended: `build()` can never create a dangling edge in the first place —
for every input record set, every edge's source and target are keys of the node
dict, because category nodes are created for every distinct code and package
nodes for every distinct non-empty package value.  (The code defines no
`MissingNodeError`; were the edge list corrupted by hand, the assembly step
would silently add the missing endpoint, as the counterexample shows.) -/
theorem build_referential_integrity (df : List Row) :
    (KnowledgeGraphBuilder.init df).build.edges.all
      (fun e => decide (e.source ∈ keysOf (KnowledgeGraphBuilder.init df).build.nodes) &&
        decide (e.target ∈ keysOf (KnowledgeGraphBuilder.init df).build.nodes)) = true :=
  built_edges_endpoints df

/-- C5: in every graph `build()` assembles, the `(source, target)` pairs of the
edge list are pairwise distinct, and `add_edge` on an existing pair overwrites
in place (the pair list is unchanged) rather than accumulating. -/
theorem graph_edge_pairs_unique :
    (∀ df : List Row, (pairsOf (KnowledgeGraphBuilder.init df).build.graphD).Nodup) ∧
      ∀ (g : Graph) (u v : NodeId) (attrs : List (String × PValue)),
        pairsOf (g.add_edge u v attrs) =
          if (u, v) ∈ pairsOf g then pairsOf g else pairsOf g ++ [(u, v)] :=
  ⟨nodup_pairs_built, pairs_add_edge⟩

theorem rowEdges_relations (r : Row) :
    (rowEdges r).map (fun e => e.relation) =
      (if r.C = "" then [] else [RelValue.valid .usesPackage]) ++
        [RelValue.valid .hasFunction, RelValue.valid .hasPhysicalType] := by
  unfold rowEdges
  by_cases h : r.C = ""
  · simp [h, EntityFactory.create_edge]
  · simp [h, EntityFactory.create_edge]

/-- C6: each row contributes 3 edges when its package field is non-empty and 2
when it is empty (with the stated relations, all outgoing from the row's
component), and the Package / FunctionClass / PhysicalClass node counts equal
the number of distinct non-empty package values resp. distinct class codes
(an integer code is never empty, so every distinct code counts). -/
theorem row_edge_counts_and_node_counts (df : List Row) :
    (KnowledgeGraphBuilder.init df).build.edges.length =
        (df.map (fun r => if r.C = "" then 2 else 3)).sum ∧
      (∀ r : Row, (rowEdges r).length = if r.C = "" then 2 else 3) ∧
      (∀ r : Row, (rowEdges r).map (fun e => e.relation) =
        (if r.C = "" then [] else [RelValue.valid .usesPackage]) ++
          [RelValue.valid .hasFunction, RelValue.valid .hasPhysicalType]) ∧
      (∀ r : Row, (rowEdges r).all (fun e => e.source = NodeId.comp r.IDNUM) = true) ∧
      ((KnowledgeGraphBuilder.init df).build.get_nodes_by_type .package).length =
        ((unique (df.map (fun r => r.C))).filter (fun c => c ≠ "")).length ∧
      ((KnowledgeGraphBuilder.init df).build.get_nodes_by_type .functionClass).length =
        (unique (df.map (fun r => r.FunctionClass))).length ∧
      ((KnowledgeGraphBuilder.init df).build.get_nodes_by_type .physicalClass).length =
        (unique (df.map (fun r => r.PhysicalClass))).length := by
  refine ⟨built_edges_length df, rowEdges_length, rowEdges_relations, ?_,
    count_package_nodes df, count_function_class_nodes df, count_physical_class_nodes df⟩
  intro r
  unfold rowEdges
  by_cases h : r.C = ""
  · simp [h, EntityFactory.create_edge]
  · simp [h, EntityFactory.create_edge]

/-- C7: a Component node carries `size = 20 + 5 × ChipL` (so `ChipL = 2` gives
`30`) and a label that is the name truncated to 15 characters; Package,
FunctionClass and PhysicalClass nodes carry the fixed sizes 30, 40, 40. -/
theorem node_display_properties (idnum : Int) (name lname : String)
    (chip_l chip_w chip_h : ℚ) (mfr mpn pkgname cn : String) (fc pc : Int) :
    dictLookup (EntityFactory.create_component_node idnum name lname chip_l chip_w chip_h
        mfr mpn).properties "size" = some (.q (20 + 5 * chip_l)) ∧
      (EntityFactory.create_component_node idnum name lname chip_l chip_w chip_h
        mfr mpn).label = (if name.length > 15 then name.take 15 else name) ∧
      dictLookup (EntityFactory.create_package_node pkgname).properties "size" =
        some (.q 30) ∧
      dictLookup (EntityFactory.create_function_class_node fc cn).properties "size" =
        some (.q 40) ∧
      dictLookup (EntityFactory.create_physical_class_node pc cn).properties "size" =
        some (.q 40) ∧
      dictLookup (EntityFactory.create_component_node idnum name lname 2 chip_w chip_h
        mfr mpn).properties "size" = some (.q 30) := by
  refine ⟨?_, rfl, rfl, rfl, rfl, ?_⟩
  · show some (PValue.q (20 + chip_l * 5)) = some (PValue.q (20 + 5 * chip_l))
    rw [mul_comm]
  · show some (PValue.q (20 + 2 * 5)) = some (PValue.q 30)
    norm_num

/-- C9 counterexample: `create_edge` called with a value outside the relation
enum succeeds and returns an edge carrying the invalid value unchanged — no
`ValidationError` is raised (the code defines no such type and performs no
validation). -/
theorem create_edge_accepts_invalid_relation :
    EntityFactory.create_edge (.comp 1) (.pkg "0402") (.invalid "BogusRelation") 1 =
      { source := .comp 1, target := .pkg "0402",
        relation := .invalid "BogusRelation", weight := 1 } := rfl

/-- C9 amended: the factory constructors perform no validation: `create_edge`
stores whatever relation value it is given, and the node constructors never
take a node-kind argument at all — each hard-codes its kind, so an unknown
`NodeKind` cannot even be supplied. -/
theorem factory_constructors_no_validation (source target : NodeId) (relation : RelValue)
    (weight : ℚ) (idnum fc pc : Int) (name lname cn : String) (l w h : ℚ)
    (mfr mpn : String) :
    EntityFactory.create_edge source target relation weight =
        { source := source, target := target, relation := relation, weight := weight } ∧
      (EntityFactory.create_component_node idnum name lname l w h mfr mpn).node_type =
        .component ∧
      (EntityFactory.create_package_node name).node_type = .package ∧
      (EntityFactory.create_function_class_node fc cn).node_type = .functionClass ∧
      (EntityFactory.create_physical_class_node pc cn).node_type = .physicalClass :=
  ⟨rfl, rfl, rfl, rfl, rfl⟩

theorem rowEdges_filter_hasFunction (r : Row) :
    ((rowEdges r).filter
      (fun e => e.relation = RelValue.valid .hasFunction)).length = 1 := by
  unfold rowEdges
  by_cases h : r.C = ""
  · simp [h, EntityFactory.create_edge]
  · simp [h, EntityFactory.create_edge]

/-- C10: two rows sharing an IDNUM build without error: the later row's
Component node replaces the earlier one in the node dict, yet a full edge set
is appended for both rows, so the raw edge list and the statistics count the
duplicates while the assembled graph still keeps one edge per pair. -/
theorem duplicate_idnum_behavior (r1 r2 : Row) (h : r1.IDNUM = r2.IDNUM) :
    (KnowledgeGraphBuilder.init [r1, r2]).build.get_nodes_by_type .component =
        [componentNodeOf r2] ∧
      (KnowledgeGraphBuilder.init [r1, r2]).build.edges = rowEdges r1 ++ rowEdges r2 ∧
      (KnowledgeGraphBuilder.init [r1, r2]).build.get_statistics.total_edges =
        (rowEdges r1).length + (rowEdges r2).length ∧
      ((KnowledgeGraphBuilder.init [r1, r2]).build.get_edges_by_relation
        .hasFunction).length = 2 ∧
      (pairsOf (KnowledgeGraphBuilder.init [r1, r2]).build.graphD).Nodup := by
  have hedges : (KnowledgeGraphBuilder.init [r1, r2]).build.edges =
      rowEdges r1 ++ rowEdges r2 := by
    rw [built_edges_eq]
    simp [edgesOf]
  refine ⟨?_, hedges, ?_, ?_, nodup_pairs_built [r1, r2]⟩
  · rw [get_component_nodes_built]
    show ((dictInsert (dictInsert [] (NodeId.comp r1.IDNUM) (componentNodeOf r1))
      (NodeId.comp r2.IDNUM) (componentNodeOf r2)).map (fun p => p.2)) = _
    rw [show dictInsert ([] : List (NodeId × Node)) (NodeId.comp r1.IDNUM)
        (componentNodeOf r1) = [(NodeId.comp r1.IDNUM, componentNodeOf r1)] from rfl,
      dictInsert_cons]
    rw [if_pos (by rw [h])]
    rfl
  · rw [stat_total_edges, hedges, List.length_append]
  · unfold KnowledgeGraphBuilder.get_edges_by_relation
    rw [hedges, List.filter_append, List.length_append,
      rowEdges_filter_hasFunction, rowEdges_filter_hasFunction]

def rowA : Row :=
  { IDNUM := 7, NAME := "A", LNAME := "a", PhysicalClass := 1, FunctionClass := 1,
    C := "0402", MFR := "", MPN := "", ChipL := 1, ChipW := 1, ChipH := 1 }

def rowB : Row :=
  { IDNUM := 7, NAME := "B", LNAME := "b", PhysicalClass := 1, FunctionClass := 2,
    C := "0603", MFR := "", MPN := "", ChipL := 2, ChipW := 1, ChipH := 1 }

/-- Witness for the C10 theorem at the concrete duplicate-IDNUM rows
`rowA`, `rowB`. -/
theorem duplicate_idnum_behavior_witness :
    (KnowledgeGraphBuilder.init [rowA, rowB]).build.get_nodes_by_type .component =
      [componentNodeOf rowB] :=
  (duplicate_idnum_behavior rowA rowB (by decide)).1

/- ## Layout engines (`layout_engines.py`)

The layout strategies consume an arbitrary networkx digraph whose nodes carry
a `type` attribute; it is modelled by `LGraph` with string node ids in
insertion order.  Coordinates are rationals (reals for the trigonometric
radial layout); `positions` is the same insertion-ordered dict model. -/

structure LGraph where
  nodes : List (String × NodeType)
  edges : List (String × String × String)
  deriving DecidableEq

/-- `data.get('type')` for a node id (`none` when the id is not in the graph). -/
def LGraph.typeOf (g : LGraph) (n : String) : Option NodeType :=
  (g.nodes.find? (fun p => p.1 = n)).map (fun p => p.2)

/-- `graph.neighbors` / `graph.successors`: adjacency in edge-insertion order. -/
def LGraph.successors (g : LGraph) (u : String) : List String :=
  unique ((g.edges.filter (fun e => e.1 = u)).map (fun e => e.2.1))

/-- `graph.predecessors`. -/
def LGraph.predecessors (g : LGraph) (v : String) : List String :=
  unique ((g.edges.filter (fun e => e.2.1 = v)).map (fun e => e.1))

def LGraph.in_degree (g : LGraph) (u : String) : Nat :=
  (g.edges.filter (fun e => e.2.1 = u)).length

def LGraph.out_degree (g : LGraph) (u : String) : Nat :=
  (g.edges.filter (fun e => e.1 = u)).length

/-- `graph.degree` of a digraph: in-degree plus out-degree. -/
def LGraph.degree (g : LGraph) (u : String) : Nat := g.in_degree u + g.out_degree u

/-- `_group_nodes_by_type` restricted to one type: the group lists keep the
graph's node-insertion order. -/
def nodesOfType (g : LGraph) (t : NodeType) : List String :=
  (g.nodes.filter (fun p => p.2 = t)).map (fun p => p.1)

/- Python string comparison: lexicographic on code points. -/

def lexLe : List Char → List Char → Bool
  | [], _ => true
  | _ :: _, [] => false
  | a :: as, b :: bs => if a < b then true else if b < a then false else lexLe as bs

def strLe (a b : String) : Bool := lexLe a.data b.data

def strLeP (a b : String) : Prop := strLe a b = true

instance : DecidableRel strLeP := fun a b => instDecidableEqBool (strLe a b) true

/-- Python `sorted` on strings. -/
def sortedStr (l : List String) : List String := l.insertionSort strLeP

/-- `_place_layer`: sort the layer lexicographically, then place it evenly
spaced on the vertical line at `x`, centred on 0. -/
def place_layer (pos : List (String × ℚ × ℚ)) (nodes : List String) (x spacing : ℚ) :
    List (String × ℚ × ℚ) :=
  let nodes_sorted := sortedStr nodes
  let n := nodes_sorted.length
  applyWrites pos (nodes_sorted.enum.map
    (fun p => (p.2, (x, ((p.1 : ℚ) - (n : ℚ) / 2 + 1/2) * spacing))))

/-- `_sort_by_connection_count`: Python's stable sort, descending by total
degree (equal-degree nodes keep their incoming relative order). -/
def sort_by_connection_count (g : LGraph) (nodes : List String) : List String :=
  nodes.insertionSort (fun a b => g.degree b ≤ g.degree a)

/-- The first neighbor whose `type` attribute is `Package` (the
`for neighbor ... if ... break` idiom used in both component passes). -/
def firstPkgNeighbor (g : LGraph) (comp : String) : Option String :=
  (g.successors comp).find? (fun nb => g.typeOf nb = some NodeType.package)

/-- The per-package selection loop of `_select_representative_components`:
take at most 2 components of each package group into the selection set and
stop after the first package that brings the set size to the cap. -/
def selectLoop : List (String × List String) → List String → Nat → List String
  | [], selected, _ => selected
  | (_, comps) :: rest, selected, max_components =>
    let selected := (comps.take 2).foldl insertIfAbsent selected
    if max_components ≤ selected.length then selected
    else selectLoop rest selected max_components

/-- `_select_representative_components`. -/
def select_representative_components (g : LGraph) (all_components : List String)
    (max_components : Nat) : List String :=
  let pkg_components : List (String × List String) :=
    all_components.foldl
      (fun m comp =>
        match firstPkgNeighbor g comp with
        | some pkg => multiInsert m pkg comp
        | none => m) []
  let selected := selectLoop pkg_components [] max_components
  (sortedStr selected).take max_components

/-- `_place_components_by_package`. -/
def place_components_by_package (g : LGraph) (pos : List (String × ℚ × ℚ))
    (components : List String) (x : ℚ) : List (String × ℚ × ℚ) :=
  let pkg_y_positions : List (String × List String) :=
    components.foldl
      (fun m comp =>
        match firstPkgNeighbor g comp with
        | some pkg =>
          if pkg ≠ "" ∧ (dictLookup pos pkg).isSome then multiInsert m pkg comp else m
        | none => m) []
  pkg_y_positions.foldl
    (fun pos pc =>
      let pkgY := ((dictLookup pos pc.1).getD (0, 0)).2
      applyWrites pos (pc.2.enum.map
        (fun p => (p.2, (x, pkgY + ((p.1 : ℚ) - (pc.2.length : ℚ) / 2 + 1/2) * (3/5))))))
    pos

/-- `HierarchicalLayout.calculate_layout` (the spacing fields of the class are
unused by the source: the lane coordinates and spacings are hard-coded). -/
def HierarchicalLayout.calculate_layout (g : LGraph) : List (String × ℚ × ℚ) :=
  let pos1 := place_layer [] (nodesOfType g .physicalClass) (-8) 4
  let pos2 := place_layer pos1 (nodesOfType g .functionClass) (-4) (5/2)
  let pkg_nodes_sorted := sort_by_connection_count g (nodesOfType g .package)
  let pos3 := place_layer pos2 pkg_nodes_sorted 0 (9/5)
  let comp_nodes := select_representative_components g (nodesOfType g .component) 80
  place_components_by_package g pos3 comp_nodes 5

/-- `SpringLayout.calculate_layout`.  The call to the third-party
`nx.spring_layout` (seeded force simulation) is modelled by the input
`basePos`, the per-node base coordinates it returns; the per-kind
post-transform is the code's. -/
def SpringLayout.calculate_layout (g : LGraph) (basePos : List (String × ℚ × ℚ)) :
    List (String × ℚ × ℚ) :=
  basePos.foldl
    (fun acc p =>
      match g.typeOf p.1 with
      | some .physicalClass => dictInsert acc p.1 (p.2.1 * (1/2) - 4, p.2.2 * 3)
      | some .functionClass => dictInsert acc p.1 (p.2.1 * (1/2) + 4, p.2.2 * 2)
      | some .package => dictInsert acc p.1 (p.2.1 * 2, p.2.2 * (3/2))
      | _ => dictInsert acc p.1 (p.2.1 * 3, p.2.2 * (6/5)))
    []

/-- Python `max(nodes, key=degree, default=None)`: the first node of maximal
degree, `none` on an empty candidate list. -/
def maxByDegree (g : LGraph) : List String → Option String
  | [] => none
  | a :: rest =>
    some (rest.foldl (fun best x => if g.degree best < g.degree x then x else best) a)

/-- `RadialLayout._place_in_circle`. -/
noncomputable def place_in_circle (nodes : List String) (radius start_angle : ℝ)
    (pos : List (String × ℝ × ℝ)) : List (String × ℝ × ℝ) :=
  applyWrites pos (nodes.enum.map
    (fun p =>
      (p.2, (radius * Real.cos (start_angle + 2 * Real.pi * (p.1 : ℝ) / (nodes.length : ℝ)),
        radius * Real.sin (start_angle + 2 * Real.pi * (p.1 : ℝ) / (nodes.length : ℝ))))))

/-- `RadialLayout.calculate_layout`. -/
noncomputable def RadialLayout.calculate_layout (g : LGraph) : List (String × ℝ × ℝ) :=
  match maxByDegree g (nodesOfType g .package) with
  | none => []
  | some center_node =>
    let pos : List (String × ℝ × ℝ) := [(center_node, (0, 0))]
    let pos2 := place_in_circle (g.predecessors center_node) 3 0 pos
    place_in_circle (g.successors center_node) 6 (Real.pi / 4) pos2

/- ## The lexicographic string order is a total preorder -/

theorem lexLe_total : ∀ as bs : List Char, lexLe as bs = true ∨ lexLe bs as = true
  | [], _ => Or.inl rfl
  | _ :: _, [] => Or.inr rfl
  | a :: as, b :: bs => by
    rcases lt_trichotomy a b with h | h | h
    · exact Or.inl (by simp [lexLe, h])
    · subst h
      rcases lexLe_total as bs with h' | h'
      · exact Or.inl (by simp [lexLe, lt_irrefl, h'])
      · exact Or.inr (by simp [lexLe, lt_irrefl, h'])
    · exact Or.inr (by simp [lexLe, h])

theorem lexLe_trans : ∀ as bs cs : List Char,
    lexLe as bs = true → lexLe bs cs = true → lexLe as cs = true
  | [], _, _, _, _ => rfl
  | a :: as, [], cs, h, _ => by simp [lexLe] at h
  | a :: as, b :: bs, [], _, h => by simp [lexLe] at h
  | a :: as, b :: bs, c :: cs, h1, h2 => by
    rw [lexLe] at h1 h2 ⊢
    by_cases hab : a < b
    · by_cases hbc : b < c
      · rw [if_pos (lt_trans hab hbc)]
      · by_cases hcb : c < b
        · simp [hbc, hcb] at h2
        · have hbc' : b = c := le_antisymm (not_lt.mp hcb) (not_lt.mp hbc)
          rw [if_pos (hbc' ▸ hab)]
    · by_cases hba : b < a
      · simp [hab, hba] at h1
      · have hab' : a = b := le_antisymm (not_lt.mp hba) (not_lt.mp hab)
        subst hab'
        by_cases hac : a < c
        · rw [if_pos hac]
        · by_cases hca : c < a
          · simp [hac, hca] at h2
          · rw [if_neg hac, if_neg hca]
            rw [if_neg hab, if_neg hba] at h1
            rw [if_neg hac, if_neg hca] at h2
            exact lexLe_trans as bs cs h1 h2

theorem lexLe_antisymm : ∀ as bs : List Char,
    lexLe as bs = true → lexLe bs as = true → as = bs
  | [], [], _, _ => rfl
  | [], _ :: _, _, h => by simp [lexLe] at h
  | _ :: _, [], h, _ => by simp [lexLe] at h
  | a :: as, b :: bs, h1, h2 => by
    rw [lexLe] at h1 h2
    by_cases hab : a < b
    · simp [hab, lt_asymm hab] at h2
    · by_cases hba : b < a
      · simp [hab, hba] at h1
      · have hab' : a = b := le_antisymm (not_lt.mp hba) (not_lt.mp hab)
        subst hab'
        rw [if_neg hab, if_neg hab] at h1 h2
        rw [lexLe_antisymm as bs h1 h2]

instance : IsTotal String strLeP :=
  ⟨fun a b => lexLe_total a.data b.data⟩

instance : IsTrans String strLeP :=
  ⟨fun a b c h1 h2 => lexLe_trans a.data b.data c.data h1 h2⟩

instance : IsAntisymm String strLeP :=
  ⟨fun a b h1 h2 => String.ext (lexLe_antisymm a.data b.data h1 h2)⟩

/- ## Writes produced by an enumerated placement loop -/

theorem keys_enumFrom_map {ν : Type} (l : List String) (f : Nat → ν) (n : Nat) :
    keysOf ((List.enumFrom n l).map (fun q => (q.2, f q.1))) = l := by
  induction l generalizing n with
  | nil => rfl
  | cons a l ih =>
    rw [List.enumFrom_cons, List.map_cons, keysOf_cons, ih]

theorem writeVal_enumFrom_map {ν : Type} (l : List String) (f : Nat → ν) :
    ∀ (n : Nat) (p : String), l.Nodup → p ∈ l →
      writeVal ((List.enumFrom n l).map (fun q => (q.2, f q.1))) p =
        some (f (n + l.indexOf p)) := by
  induction l with
  | nil =>
    intro n p _ hp
    simp at hp
  | cons a l ih =>
    intro n p hnd hp
    rw [List.nodup_cons] at hnd
    rw [List.enumFrom_cons, List.map_cons, writeVal_cons]
    by_cases hpa : p = a
    · subst hpa
      rw [writeVal_eq_none _ _ (by rw [keys_enumFrom_map]; exact hnd.1)]
      simp [List.indexOf_cons_self]
    · have hpl : p ∈ l := by
        rcases List.mem_cons.mp hp with h | h
        · exact absurd h hpa
        · exact h
      rw [ih (n + 1) p hnd.2 hpl]
      rw [List.indexOf_cons_ne _ (fun he => hpa he.symm)]
      have harith : n + 1 + l.indexOf p = n + (l.indexOf p).succ := by omega
      rw [harith]

theorem keys_place_layer_writes (nodes : List String) (x spacing : ℚ) :
    keysOf ((sortedStr nodes).enum.map
      (fun p => (p.2, (x, ((p.1 : ℚ) - ((sortedStr nodes).length : ℚ) / 2 + 1/2) * spacing))))
      = sortedStr nodes :=
  keys_enumFrom_map (sortedStr nodes)
    (fun i => (x, ((i : ℚ) - ((sortedStr nodes).length : ℚ) / 2 + 1/2) * spacing)) 0

/- ## `sortedStr` facts -/

theorem sortedStr_perm (l : List String) : List.Perm (sortedStr l) l :=
  List.perm_insertionSort _ l

theorem sortedStr_sorted (l : List String) : (sortedStr l).Sorted strLeP :=
  List.sorted_insertionSort _ l

theorem sortedStr_nodup {l : List String} (h : l.Nodup) : (sortedStr l).Nodup :=
  (sortedStr_perm l).nodup_iff.mpr h

theorem mem_sortedStr {l : List String} {p : String} : p ∈ sortedStr l ↔ p ∈ l :=
  (sortedStr_perm l).mem_iff

theorem sortedStr_length (l : List String) : (sortedStr l).length = l.length :=
  (sortedStr_perm l).length_eq

/-- The lexicographic re-sort inside `_place_layer` erases the degree sort:
sorting the degree-sorted package list gives the plain lexicographic order. -/
theorem sortedStr_sort_by_connection (g : LGraph) (l : List String) :
    sortedStr (sort_by_connection_count g l) = sortedStr l :=
  List.eq_of_perm_of_sorted
    ((sortedStr_perm _).trans ((List.perm_insertionSort _ l).trans (sortedStr_perm l).symm))
    (sortedStr_sorted _) (sortedStr_sorted _)

/- ## Graph node facts -/

theorem find?_key_of_nodup {κ ν : Type} [DecidableEq κ] {m : List (κ × ν)}
    (hnd : (keysOf m).Nodup) {p : κ × ν} (hp : p ∈ m) :
    m.find? (fun q => q.1 = p.1) = some p := by
  induction m with
  | nil => simp at hp
  | cons q m ih =>
    rw [keysOf_cons, List.nodup_cons] at hnd
    rcases List.mem_cons.mp hp with h | h
    · subst h
      simp [List.find?_cons]
    · have hne : ¬q.1 = p.1 := by
        intro he
        exact hnd.1 (he ▸ List.mem_map_of_mem Prod.fst h)
      rw [List.find?_cons, decide_eq_false hne]
      exact ih hnd.2 h

theorem typeOf_of_mem_nodesOfType {g : LGraph} (hnd : (keysOf g.nodes).Nodup)
    {c : String} {t : NodeType} (h : c ∈ nodesOfType g t) : g.typeOf c = some t := by
  unfold nodesOfType at h
  rcases List.mem_map.mp h with ⟨p, hp, hpc⟩
  rcases List.mem_filter.mp hp with ⟨hpmem, hpt⟩
  rw [decide_eq_true_eq] at hpt
  subst hpc
  unfold LGraph.typeOf
  rw [find?_key_of_nodup hnd hpmem]
  simp [hpt]

theorem nodup_nodesOfType {g : LGraph} (hnd : (keysOf g.nodes).Nodup) (t : NodeType) :
    (nodesOfType g t).Nodup :=
  hnd.sublist ((List.filter_sublist g.nodes).map Prod.fst)

theorem not_mem_nodesOfType {g : LGraph} (hnd : (keysOf g.nodes).Nodup) {c : String}
    {t t' : NodeType} (hc : g.typeOf c = some t) (hne : t' ≠ t) :
    c ∉ nodesOfType g t' := by
  intro hmem
  rw [typeOf_of_mem_nodesOfType hnd hmem] at hc
  exact hne (Option.some.inj hc)

/- ## `multiInsert` facts -/

theorem multiInsert_cons {κ ν : Type} [DecidableEq κ] (q : κ × List ν)
    (m : List (κ × List ν)) (k : κ) (v : ν) :
    multiInsert (q :: m) k v =
      if q.1 = k then (k, q.2 ++ [v]) :: m else q :: multiInsert m k v := by
  cases q
  rfl

theorem mem_val_multiInsert {κ ν : Type} [DecidableEq κ] {m : List (κ × List ν)} {k : κ}
    {v : ν} {p : κ × List ν} (hp : p ∈ multiInsert m k v) {c : ν} (hc : c ∈ p.2) :
    (∃ q ∈ m, c ∈ q.2 ∧ q.1 = p.1) ∨ (c = v ∧ p.1 = k) := by
  induction m with
  | nil =>
    rw [show multiInsert ([] : List (κ × List ν)) k v = [(k, [v])] from rfl] at hp
    rw [List.mem_singleton] at hp
    subst hp
    exact Or.inr ⟨List.mem_singleton.mp hc, rfl⟩
  | cons q m ih =>
    rw [multiInsert_cons] at hp
    by_cases hk : q.1 = k
    · rw [if_pos hk] at hp
      rcases List.mem_cons.mp hp with h | h
      · subst h
        rcases List.mem_append.mp hc with h' | h'
        · exact Or.inl ⟨q, List.mem_cons_self _ _, h', by rw [hk]⟩
        · exact Or.inr ⟨List.mem_singleton.mp h', rfl⟩
      · exact Or.inl ⟨p, List.mem_cons_of_mem _ h, hc, rfl⟩
    · rw [if_neg hk] at hp
      rcases List.mem_cons.mp hp with h | h
      · subst h
        exact Or.inl ⟨p, List.mem_cons_self _ _, hc, rfl⟩
      · rcases ih h with ⟨q', hq', hcq', hkq'⟩ | h'
        · exact Or.inl ⟨q', List.mem_cons_of_mem _ hq', hcq', hkq'⟩
        · exact Or.inr h'

theorem keys_multiInsert {κ ν : Type} [DecidableEq κ] (m : List (κ × List ν)) (k : κ)
    (v : ν) :
    keysOf (multiInsert m k v) = if k ∈ keysOf m then keysOf m else keysOf m ++ [k] := by
  induction m with
  | nil =>
    rw [if_neg (by simp [keysOf_nil])]
    rfl
  | cons q m ih =>
    rw [multiInsert_cons]
    by_cases hk : q.1 = k
    · rw [if_pos hk, if_pos (by rw [keysOf_cons, List.mem_cons]; exact Or.inl hk.symm),
        keysOf_cons, keysOf_cons, hk]
    · rw [if_neg hk, keysOf_cons, keysOf_cons, ih]
      by_cases hm : k ∈ keysOf m
      · rw [if_pos hm, if_pos (List.mem_cons.mpr (Or.inr hm))]
      · rw [if_neg hm, if_neg ?hne, List.cons_append]
        case hne =>
          rw [List.mem_cons]
          rintro (h | h)
          · exact hk h.symm
          · exact hm h

theorem nodup_keys_multiInsert {κ ν : Type} [DecidableEq κ] {m : List (κ × List ν)}
    (k : κ) (v : ν) (h : (keysOf m).Nodup) : (keysOf (multiInsert m k v)).Nodup := by
  rw [keys_multiInsert]
  by_cases hk : k ∈ keysOf m
  · rw [if_pos hk]; exact h
  · rw [if_neg hk]
    simpa [List.nodup_append] using ⟨h, hk⟩

/- ## Invariants of the per-package grouping folds -/

theorem select_groups_inv (g : LGraph) (Q : String → Prop) :
    ∀ (comps : List String), (∀ c ∈ comps, Q c) →
      ∀ (m : List (String × List String)),
        (∀ p ∈ m, ∀ c ∈ p.2, Q c ∧ firstPkgNeighbor g c = some p.1) →
        ∀ p ∈ comps.foldl
          (fun m comp =>
            match firstPkgNeighbor g comp with
            | some pkg => multiInsert m pkg comp
            | none => m) m,
          ∀ c ∈ p.2, Q c ∧ firstPkgNeighbor g c = some p.1 := by
  intro comps
  induction comps with
  | nil =>
    intro _ m hm
    exact hm
  | cons a comps ih =>
    intro hQ m hm
    rw [List.foldl_cons]
    cases hfp : firstPkgNeighbor g a with
    | none => exact ih (fun c hc => hQ c (List.mem_cons_of_mem _ hc)) m hm
    | some pkg =>
      refine ih (fun c hc => hQ c (List.mem_cons_of_mem _ hc)) _ ?_
      intro p hp c hc
      rcases mem_val_multiInsert hp hc with ⟨q, hq, hcq, hkq⟩ | ⟨hcv, hpk⟩
      · rcases hm q hq c hcq with ⟨h1, h2⟩
        exact ⟨h1, by rw [h2, hkq]⟩
      · subst hcv
        exact ⟨hQ c (List.mem_cons_self _ _), by rw [hfp, hpk]⟩

theorem select_groups_keys_nodup (g : LGraph) :
    ∀ (comps : List String) (m : List (String × List String)),
      (keysOf m).Nodup →
      (keysOf (comps.foldl
        (fun m comp =>
          match firstPkgNeighbor g comp with
          | some pkg => multiInsert m pkg comp
          | none => m) m)).Nodup := by
  intro comps
  induction comps with
  | nil =>
    intro m hm
    exact hm
  | cons a comps ih =>
    intro m hm
    rw [List.foldl_cons]
    cases hfp : firstPkgNeighbor g a with
    | none => exact ih m hm
    | some pkg => exact ih _ (nodup_keys_multiInsert _ _ hm)

theorem place_groups_inv (g : LGraph) (pos : List (String × ℚ × ℚ)) (Q : String → Prop) :
    ∀ (comps : List String), (∀ c ∈ comps, Q c) →
      ∀ (m : List (String × List String)), (∀ p ∈ m, ∀ c ∈ p.2, Q c) →
      ∀ p ∈ comps.foldl
        (fun m comp =>
          match firstPkgNeighbor g comp with
          | some pkg =>
            if pkg ≠ "" ∧ (dictLookup pos pkg).isSome then multiInsert m pkg comp else m
          | none => m) m,
        ∀ c ∈ p.2, Q c := by
  intro comps
  induction comps with
  | nil =>
    intro _ m hm
    exact hm
  | cons a comps ih =>
    intro hQ m hm
    rw [List.foldl_cons]
    cases hfp : firstPkgNeighbor g a with
    | none => exact ih (fun c hc => hQ c (List.mem_cons_of_mem _ hc)) m hm
    | some pkg =>
      refine ih (fun c hc => hQ c (List.mem_cons_of_mem _ hc)) _ ?_
      intro p hp c hc
      have hp' : p ∈ (if pkg ≠ "" ∧ (dictLookup pos pkg).isSome then multiInsert m pkg a
          else m) := hp
      by_cases hcond : pkg ≠ "" ∧ (dictLookup pos pkg).isSome
      · rw [if_pos hcond] at hp'
        rcases mem_val_multiInsert hp' hc with ⟨q, hq, hcq, _⟩ | ⟨hcv, _⟩
        · exact hm q hq c hcq
        · exact hcv ▸ hQ a (List.mem_cons_self _ _)
      · rw [if_neg hcond] at hp'
        exact hm p hp' c hc

/- ## `selectLoop` facts -/

theorem mem_foldl_insertIfAbsent {l sel : List String} {c : String}
    (h : c ∈ l.foldl insertIfAbsent sel) : c ∈ sel ∨ c ∈ l := by
  induction l generalizing sel with
  | nil => exact Or.inl h
  | cons a l ih =>
    rw [List.foldl_cons] at h
    rcases ih h with h' | h'
    · unfold insertIfAbsent at h'
      by_cases ha : a ∈ sel
      · rw [if_pos ha] at h'
        exact Or.inl h'
      · rw [if_neg ha] at h'
        rcases List.mem_append.mp h' with h'' | h''
        · exact Or.inl h''
        · exact Or.inr (by rw [List.mem_singleton.mp h'']; exact List.mem_cons_self _ _)
    · exact Or.inr (List.mem_cons_of_mem _ h')

theorem nodup_insertIfAbsent {sel : List String} (a : String) (h : sel.Nodup) :
    (insertIfAbsent sel a).Nodup := by
  unfold insertIfAbsent
  by_cases ha : a ∈ sel
  · rw [if_pos ha]; exact h
  · rw [if_neg ha]
    simpa [List.nodup_append] using ⟨h, ha⟩

theorem nodup_foldl_insertIfAbsent (l : List String) {sel : List String} (h : sel.Nodup) :
    (l.foldl insertIfAbsent sel).Nodup := by
  induction l generalizing sel with
  | nil => exact h
  | cons a l ih => exact ih (nodup_insertIfAbsent a h)

theorem countP_insertIfAbsent (q : String → Bool) (sel : List String) (a : String) :
    (insertIfAbsent sel a).countP q ≤ sel.countP q + (if q a then 1 else 0) := by
  unfold insertIfAbsent
  by_cases ha : a ∈ sel
  · rw [if_pos ha]
    exact Nat.le_add_right _ _
  · rw [if_neg ha, List.countP_append]
    by_cases hq : q a
    · simp [List.countP_cons, hq]
    · simp [List.countP_cons, hq]

theorem countP_foldl_insertIfAbsent (q : String → Bool) (l : List String) :
    ∀ sel : List String,
      (l.foldl insertIfAbsent sel).countP q ≤ sel.countP q + l.countP q := by
  induction l with
  | nil =>
    intro sel
    simp
  | cons a l ih =>
    intro sel
    rw [List.foldl_cons, List.countP_cons]
    calc (l.foldl insertIfAbsent (insertIfAbsent sel a)).countP q
        ≤ (insertIfAbsent sel a).countP q + l.countP q := ih _
      _ ≤ sel.countP q + (if q a then 1 else 0) + l.countP q :=
          Nat.add_le_add_right (countP_insertIfAbsent q sel a) _
      _ ≤ sel.countP q + (l.countP q + if q a = true then 1 else 0) := by omega

theorem mem_selectLoop {groups : List (String × List String)} {sel : List String}
    {cap : Nat} {c : String} (h : c ∈ selectLoop groups sel cap) :
    c ∈ sel ∨ ∃ p ∈ groups, c ∈ p.2 := by
  induction groups generalizing sel with
  | nil => exact Or.inl h
  | cons pc rest ih =>
    rw [show selectLoop (pc :: rest) sel cap = selectLoop ((pc.1, pc.2) :: rest) sel cap
      from rfl, selectLoop] at h
    set sel' := (pc.2.take 2).foldl insertIfAbsent sel with hsel'
    have hstep : c ∈ sel' → c ∈ sel ∨ ∃ p ∈ pc :: rest, c ∈ p.2 := by
      intro hc
      rcases mem_foldl_insertIfAbsent hc with h' | h'
      · exact Or.inl h'
      · exact Or.inr ⟨pc, List.mem_cons_self _ _,
          (List.take_sublist 2 pc.2).mem h'⟩
    split at h
    · exact hstep h
    · rcases ih h with h' | ⟨p, hp, hcp⟩
      · exact hstep h'
      · exact Or.inr ⟨p, List.mem_cons_of_mem _ hp, hcp⟩

theorem nodup_selectLoop (groups : List (String × List String)) :
    ∀ (sel : List String), sel.Nodup → ∀ cap, (selectLoop groups sel cap).Nodup := by
  induction groups with
  | nil =>
    intro sel h _
    exact h
  | cons pc rest ih =>
    intro sel h cap
    rw [show selectLoop (pc :: rest) sel cap = selectLoop ((pc.1, pc.2) :: rest) sel cap
      from rfl, selectLoop]
    split
    · exact nodup_foldl_insertIfAbsent _ h
    · exact ih _ (nodup_foldl_insertIfAbsent _ h) cap

theorem countP_selectLoop (q : String → Bool) (pkg : String) :
    ∀ (groups : List (String × List String)),
      (∀ p ∈ groups, ∀ c ∈ p.2, q c = true → p.1 = pkg) →
      (keysOf groups).Nodup →
      ∀ (sel : List String) (cap : Nat),
        (selectLoop groups sel cap).countP q ≤
          sel.countP q + (if pkg ∈ keysOf groups then 2 else 0) := by
  intro groups
  induction groups with
  | nil =>
    intro _ _ sel cap
    exact Nat.le_add_right _ _
  | cons pc rest ih =>
    intro hq hnd sel cap
    rw [keysOf_cons, List.nodup_cons] at hnd
    have hmono : (if pkg ∈ keysOf rest then 2 else 0) ≤
        (if pkg ∈ keysOf (pc :: rest) then 2 else 0) := by
      by_cases hr : pkg ∈ keysOf rest
      · rw [if_pos hr, if_pos (by rw [keysOf_cons]; exact List.mem_cons_of_mem _ hr)]
      · rw [if_neg hr]
        exact Nat.zero_le _
    have hstep : ((pc.2.take 2).foldl insertIfAbsent sel).countP q ≤
        sel.countP q + (if pkg ∈ keysOf (pc :: rest) then 2 else 0) := by
      refine le_trans (countP_foldl_insertIfAbsent q _ sel) ?_
      by_cases hk : pc.1 = pkg
      · have h2 : (pc.2.take 2).countP q ≤ 2 :=
          le_trans (List.countP_le_length q) (by
            rw [List.length_take]
            exact Nat.min_le_left _ _)
        have : pkg ∈ keysOf (pc :: rest) := by
          rw [keysOf_cons, ← hk]
          exact List.mem_cons_self _ _
        rw [if_pos this]
        omega
      · have h0 : (pc.2.take 2).countP q = 0 := by
          rw [List.countP_eq_zero]
          intro c hc hqc
          exact hk (hq pc (List.mem_cons_self _ _) c ((List.take_sublist 2 pc.2).mem hc) hqc)
        rw [h0]
        omega
    rw [show selectLoop (pc :: rest) sel cap = selectLoop ((pc.1, pc.2) :: rest) sel cap
      from rfl, selectLoop]
    split
    · exact hstep
    · refine le_trans (ih (fun p hp => hq p (List.mem_cons_of_mem _ hp)) hnd.2 _ cap) ?_
      by_cases hk : pc.1 = pkg
      · have hr : pkg ∉ keysOf rest := by
          rw [← hk]
          exact hnd.1
        rw [if_neg hr]
        have : pkg ∈ keysOf (pc :: rest) := by
          rw [keysOf_cons, ← hk]
          exact List.mem_cons_self _ _
        rw [if_pos this]
        have h2 : (pc.2.take 2).countP q ≤ 2 :=
          le_trans (List.countP_le_length q) (by
            rw [List.length_take]
            exact Nat.min_le_left _ _)
        have := countP_foldl_insertIfAbsent q (pc.2.take 2) sel
        omega
      · have h0 : (pc.2.take 2).countP q = 0 := by
          rw [List.countP_eq_zero]
          intro c hc hqc
          exact hk (hq pc (List.mem_cons_self _ _) c ((List.take_sublist 2 pc.2).mem hc) hqc)
        have h1 := countP_foldl_insertIfAbsent q (pc.2.take 2) sel
        rw [h0] at h1
        omega

/- ## Facts about `_select_representative_components` -/

/-- The grouping pass of `_select_representative_components` as a standalone
abbreviation (definitionally equal to the fold in the source transcription). -/
def selectGroups (g : LGraph) (comps : List String) : List (String × List String) :=
  comps.foldl
    (fun m comp =>
      match firstPkgNeighbor g comp with
      | some pkg => multiInsert m pkg comp
      | none => m) []

theorem select_eq (g : LGraph) (comps : List String) (M : Nat) :
    select_representative_components g comps M =
      (sortedStr (selectLoop (selectGroups g comps) [] M)).take M := rfl

theorem selectGroups_spec (g : LGraph) (comps : List String) :
    ∀ p ∈ selectGroups g comps, ∀ c ∈ p.2,
      c ∈ comps ∧ firstPkgNeighbor g c = some p.1 :=
  select_groups_inv g (fun c => c ∈ comps) comps (fun _ hc => hc) [] (by simp)

theorem selectGroups_keys_nodup (g : LGraph) (comps : List String) :
    (keysOf (selectGroups g comps)).Nodup :=
  select_groups_keys_nodup g comps [] List.nodup_nil

theorem select_length_le (g : LGraph) (comps : List String) (M : Nat) :
    (select_representative_components g comps M).length ≤ M := by
  rw [select_eq, List.length_take]
  exact Nat.min_le_left _ _

theorem select_subset (g : LGraph) (comps : List String) (M : Nat) :
    ∀ c ∈ select_representative_components g comps M,
      c ∈ comps ∧ (firstPkgNeighbor g c).isSome := by
  intro c hc
  rw [select_eq] at hc
  have hc' := mem_sortedStr.mp ((List.take_sublist _ _).mem hc)
  rcases mem_selectLoop hc' with h | ⟨p, hp, hcp⟩
  · simp at h
  · rcases selectGroups_spec g comps p hp c hcp with ⟨h1, h2⟩
    exact ⟨h1, by rw [h2]; rfl⟩

theorem select_sorted (g : LGraph) (comps : List String) (M : Nat) :
    (select_representative_components g comps M).Sorted strLeP := by
  rw [select_eq]
  exact (sortedStr_sorted _).sublist (List.take_sublist _ _)

theorem select_nodup (g : LGraph) (comps : List String) (M : Nat) :
    (select_representative_components g comps M).Nodup := by
  rw [select_eq]
  exact (sortedStr_nodup (nodup_selectLoop _ [] List.nodup_nil M)).sublist
    (List.take_sublist _ _)

theorem select_per_package (g : LGraph) (comps : List String) (M : Nat) (pkg : String) :
    (select_representative_components g comps M).countP
      (fun c => firstPkgNeighbor g c = some pkg) ≤ 2 := by
  rw [select_eq]
  refine le_trans (List.Sublist.countP_le _ (List.take_sublist _ _)) ?_
  rw [(sortedStr_perm _).countP_eq]
  have h := countP_selectLoop (fun c => decide (firstPkgNeighbor g c = some pkg)) pkg
    (selectGroups g comps) ?hq (selectGroups_keys_nodup g comps) [] M
  case hq =>
    intro p hp c hc hqc
    rw [decide_eq_true_eq] at hqc
    rcases selectGroups_spec g comps p hp c hc with ⟨_, h2⟩
    rw [h2] at hqc
    exact Option.some.inj hqc
  refine le_trans h ?_
  rw [List.countP_nil]
  split <;> omega

/- ## Position lookups through the layers -/

theorem dictLookup_place_layer_mem {nodes : List String} (pos : List (String × ℚ × ℚ))
    (x spacing : ℚ) {p : String} (hnd : nodes.Nodup) (hp : p ∈ nodes) :
    dictLookup (place_layer pos nodes x spacing) p =
      some (x, (((sortedStr nodes).indexOf p : ℚ) -
        ((sortedStr nodes).length : ℚ) / 2 + 1/2) * spacing) := by
  refine dictLookup_applyWrites_some pos ?_
  have h := writeVal_enumFrom_map (sortedStr nodes)
    (fun i => (x, ((i : ℚ) - ((sortedStr nodes).length : ℚ) / 2 + 1/2) * spacing)) 0 p
    (sortedStr_nodup hnd) (mem_sortedStr.mpr hp)
  rw [Nat.zero_add] at h
  exact h

theorem dictLookup_place_layer_not_mem {nodes : List String} (pos : List (String × ℚ × ℚ))
    (x spacing : ℚ) {p : String} (hp : p ∉ nodes) :
    dictLookup (place_layer pos nodes x spacing) p = dictLookup pos p := by
  refine dictLookup_applyWrites_none pos ?_
  apply writeVal_eq_none
  rw [keys_place_layer_writes]
  exact fun h => hp (mem_sortedStr.mp h)

/-- The grouping pass of `_place_components_by_package`, as an abbreviation. -/
def placeGroups (g : LGraph) (pos : List (String × ℚ × ℚ)) (comps : List String) :
    List (String × List String) :=
  comps.foldl
    (fun m comp =>
      match firstPkgNeighbor g comp with
      | some pkg =>
        if pkg ≠ "" ∧ (dictLookup pos pkg).isSome then multiInsert m pkg comp else m
      | none => m) []

theorem place_components_eq (g : LGraph) (pos : List (String × ℚ × ℚ))
    (comps : List String) (x : ℚ) :
    place_components_by_package g pos comps x =
      (placeGroups g pos comps).foldl
        (fun pos pc =>
          applyWrites pos (pc.2.enum.map
            (fun p => (p.2, (x, ((dictLookup pos pc.1).getD (0, 0)).2 +
              ((p.1 : ℚ) - (pc.2.length : ℚ) / 2 + 1/2) * (3/5)))))) pos := rfl

theorem placeGroups_spec (g : LGraph) (pos : List (String × ℚ × ℚ)) (comps : List String) :
    ∀ p ∈ placeGroups g pos comps, ∀ c ∈ p.2, c ∈ comps :=
  place_groups_inv g pos (fun c => c ∈ comps) comps (fun _ hc => hc) [] (by simp)

theorem keys_map_snd {α ν : Type} (L : List (Nat × α)) (f : Nat × α → ν) :
    keysOf (L.map (fun q => (q.2, f q))) = L.map (fun q => q.2) := by
  unfold keysOf
  rw [List.map_map]
  rfl

theorem keys_map_enum_snd {ν : Type} (l : List String) (f : Nat × String → ν) :
    keysOf (l.enum.map (fun q => (q.2, f q))) = l := by
  rw [keys_map_snd]
  exact List.enum_map_snd l

theorem dictLookup_place_components_not_mem (g : LGraph) (pos : List (String × ℚ × ℚ))
    (comps : List String) (x : ℚ) {c : String} (hc : c ∉ comps) :
    dictLookup (place_components_by_package g pos comps x) c = dictLookup pos c := by
  rw [place_components_eq]
  have hno : ∀ p ∈ placeGroups g pos comps, c ∉ p.2 :=
    fun p hp hcp => hc (placeGroups_spec g pos comps p hp c hcp)
  generalize placeGroups g pos comps = groups at hno
  induction groups generalizing pos with
  | nil => rfl
  | cons pc rest ih =>
    rw [List.foldl_cons]
    rw [ih _ (fun p hp => hno p (List.mem_cons_of_mem _ hp))]
    refine dictLookup_applyWrites_none pos ?_
    apply writeVal_eq_none
    rw [keys_map_enum_snd]
    exact hno pc (List.mem_cons_self _ _)

theorem calculate_layout_eq (g : LGraph) :
    HierarchicalLayout.calculate_layout g =
      place_components_by_package g
        (place_layer (place_layer (place_layer [] (nodesOfType g .physicalClass) (-8) 4)
            (nodesOfType g .functionClass) (-4) (5/2))
          (sort_by_connection_count g (nodesOfType g .package)) 0 (9/5))
        (select_representative_components g (nodesOfType g .component) 80) 5 := rfl

/-- Where `calculate_layout` puts a package: at x = 0, at the slot given by its
index in the lexicographically sorted package list — the degree ordering is
discarded by `_place_layer`'s re-sort. -/
theorem hierarchical_pkg_lookup (g : LGraph) (hnd : (keysOf g.nodes).Nodup) {p : String}
    (hp : p ∈ nodesOfType g .package) :
    dictLookup (HierarchicalLayout.calculate_layout g) p =
      some (0, (((sortedStr (nodesOfType g .package)).indexOf p : ℚ) -
        ((nodesOfType g .package).length : ℚ) / 2 + 1/2) * (9/5)) := by
  rw [calculate_layout_eq]
  have htype : g.typeOf p = some .package := typeOf_of_mem_nodesOfType hnd hp
  have hnotin : p ∉ select_representative_components g (nodesOfType g .component) 80 := by
    intro hmem
    exact not_mem_nodesOfType hnd htype (fun h => NodeType.noConfusion h)
      (select_subset g _ 80 p hmem).1
  rw [dictLookup_place_components_not_mem g _ _ _ hnotin]
  have hsnodup : (sort_by_connection_count g (nodesOfType g .package)).Nodup :=
    (List.perm_insertionSort _ _).nodup_iff.mpr (nodup_nodesOfType hnd .package)
  have hsmem : p ∈ sort_by_connection_count g (nodesOfType g .package) :=
    (List.perm_insertionSort _ _).mem_iff.mpr hp
  rw [dictLookup_place_layer_mem _ 0 (9/5) hsnodup hsmem, sortedStr_sort_by_connection,
    sortedStr_length]

theorem placed_component_selected (g : LGraph) (hnd : (keysOf g.nodes).Nodup) (c : String)
    (hc : g.typeOf c = some .component)
    (hpos : (dictLookup (HierarchicalLayout.calculate_layout g) c).isSome) :
    c ∈ select_representative_components g (nodesOfType g .component) 80 := by
  by_contra hsel
  rw [calculate_layout_eq, dictLookup_place_components_not_mem g _ _ _ hsel,
    dictLookup_place_layer_not_mem _ _ _ ?h3, dictLookup_place_layer_not_mem _ _ _ ?h2,
    dictLookup_place_layer_not_mem _ _ _ ?h1, dictLookup_nil] at hpos
  · simp at hpos
  case h3 =>
    intro hmem
    exact not_mem_nodesOfType hnd hc (fun h => NodeType.noConfusion h)
      ((List.perm_insertionSort _ _).mem_iff.mp hmem)
  case h2 => exact not_mem_nodesOfType hnd hc (fun h => NodeType.noConfusion h)
  case h1 => exact not_mem_nodesOfType hnd hc (fun h => NodeType.noConfusion h)

/- ## Layout claim theorems -/

/-- C3 amended: the down-selection takes at most 2 components per package
(a component's package being its first out-neighbor of Package type,
regardless of the edge's relation), stops at the cap, returns a
lexicographically sorted list truncated to the cap; consequently at most `M`
components are selected, a component with no Package out-neighbor is never
selected, and only selected components are placed by the layout.  (The scan
runs in the graph's node-insertion order, not ascending id order.) -/
theorem representative_selection_properties :
    (∀ (g : LGraph) (comps : List String) (M : Nat),
      (select_representative_components g comps M).length ≤ M ∧
        (select_representative_components g comps M).Sorted strLeP ∧
        (∀ c ∈ select_representative_components g comps M,
          c ∈ comps ∧ (firstPkgNeighbor g c).isSome) ∧
        ∀ pkg : String,
          (select_representative_components g comps M).countP
            (fun c => firstPkgNeighbor g c = some pkg) ≤ 2) ∧
      ∀ g : LGraph, (keysOf g.nodes).Nodup → ∀ c : String,
        g.typeOf c = some .component →
        (dictLookup (HierarchicalLayout.calculate_layout g) c).isSome →
        c ∈ select_representative_components g (nodesOfType g .component) 80 :=
  ⟨fun g comps M =>
    ⟨select_length_le g comps M, select_sorted g comps M, select_subset g comps M,
      select_per_package g comps M⟩,
   placed_component_selected⟩

def gW : LGraph :=
  { nodes := [("COMP_1", .component), ("PKG_1", .package)],
    edges := [("COMP_1", "PKG_1", "usesPackage")] }

/-- Witness for the C3 theorem on a concrete one-component graph. -/
theorem representative_selection_properties_witness :
    "COMP_1" ∈ select_representative_components gW (nodesOfType gW .component) 80 ∧
      (select_representative_components gW (nodesOfType gW .component) 80).length ≤ 80 :=
  ⟨representative_selection_properties.2 gW (by decide) "COMP_1" (by decide) (by decide),
   (representative_selection_properties.1 gW (nodesOfType gW .component) 80).1⟩

/-- Modelled from the spec: the selection walk C3 claims, with components
scanned in ascending id order instead of graph insertion order (the only
difference from the code's walk). -/
def specSelectAscending (g : LGraph) (all_components : List String) (max_components : Nat) :
    List String :=
  select_representative_components g (sortedStr all_components) max_components

/-- Whether a component has an outgoing edge whose relation attribute is
`usesPackage`. -/
def hasUsesPackageEdge (g : LGraph) (c : String) : Bool :=
  g.edges.any (fun e => e.1 = c ∧ e.2.2 = "usesPackage")

def gOrd : LGraph :=
  { nodes := [("COMP_B", .component), ("COMP_A", .component), ("PKG_1", .package),
      ("PKG_2", .package)],
    edges := [("COMP_B", "PKG_1", "usesPackage"), ("COMP_A", "PKG_2", "usesPackage")] }

def gRel : LGraph :=
  { nodes := [("COMP_A", .component), ("PKG_1", .package)],
    edges := [("COMP_A", "PKG_1", "hasFunction")] }

/-- C3 counterexample: scanning in graph insertion order (`gOrd`, cap 1) keeps
`COMP_B` while the claimed ascending-id scan keeps `COMP_A`; and in `gRel` a
component with no `usesPackage` edge (only a `hasFunction` edge to a Package
node) is selected and placed, contradicting the claim's never-placed clause. -/
theorem selection_order_counterexample :
    (select_representative_components gOrd (nodesOfType gOrd .component) 1 = ["COMP_B"] ∧
      specSelectAscending gOrd (nodesOfType gOrd .component) 1 = ["COMP_A"] ∧
      (["COMP_B"] : List String) ≠ ["COMP_A"]) ∧
      select_representative_components gRel (nodesOfType gRel .component) 80 = ["COMP_A"] ∧
      hasUsesPackageEdge gRel "COMP_A" = false ∧
      (dictLookup (HierarchicalLayout.calculate_layout gRel) "COMP_A").isSome = true := by
  refine ⟨⟨?_, ?_, ?_⟩, ?_, ?_, ?_⟩ <;> decide

/-- C4 amended: every Package node is placed at x = 0 with spacing 1.8, evenly
spaced and vertically centred on 0, in lexicographic id order — the total
degree sort of `_sort_by_connection_count` has no effect on the lane because
`_place_layer` re-sorts its input lexicographically. -/
theorem package_lane_lexicographic (g : LGraph) (hnd : (keysOf g.nodes).Nodup)
    (p : String) (hp : p ∈ nodesOfType g .package) :
    dictLookup (HierarchicalLayout.calculate_layout g) p =
        some (0, (((sortedStr (nodesOfType g .package)).indexOf p : ℚ) -
          ((nodesOfType g .package).length : ℚ) / 2 + 1/2) * (9/5)) ∧
      sortedStr (sort_by_connection_count g (nodesOfType g .package)) =
        sortedStr (nodesOfType g .package) :=
  ⟨hierarchical_pkg_lookup g hnd hp, sortedStr_sort_by_connection g _⟩

def gW4 : LGraph := { nodes := [("PKG_A", .package)], edges := [] }

/-- Witness for the C4 theorem on a one-package graph. -/
theorem package_lane_lexicographic_witness :
    dictLookup (HierarchicalLayout.calculate_layout gW4) "PKG_A" =
      some (0, (((sortedStr (nodesOfType gW4 .package)).indexOf "PKG_A" : ℚ) -
        ((nodesOfType gW4 .package).length : ℚ) / 2 + 1/2) * (9/5)) :=
  (package_lane_lexicographic gW4 (by decide) "PKG_A" (by decide)).1

/-- Modelled from the spec: the package ordering C4 claims — total degree
descending, ties broken lexicographically by id. -/
def specPkgOrder (g : LGraph) (nodes : List String) : List String :=
  nodes.insertionSort
    (fun a b => g.degree b < g.degree a ∨ (g.degree a = g.degree b ∧ strLeP a b))

/-- Modelled from the spec: the package lane C4 claims — x = 0, spacing 1.8,
slots by `specPkgOrder`, centred on 0. -/
def specPkgPositions (g : LGraph) : List (String × ℚ × ℚ) :=
  applyWrites [] ((specPkgOrder g (nodesOfType g .package)).enum.map
    (fun p => (p.2, ((0 : ℚ),
      ((p.1 : ℚ) - ((nodesOfType g .package).length : ℚ) / 2 + 1/2) * (9/5)))))

def gDeg : LGraph :=
  { nodes := [("PKG_A", .package), ("PKG_B", .package), ("COMP_1", .component)],
    edges := [("COMP_1", "PKG_B", "usesPackage")] }

/-- C4 counterexample: in `gDeg` the degrees are `PKG_B` = 1 > `PKG_A` = 0, so
the claimed degree-descending lane puts `PKG_A` in the second slot (y = 9/10),
but the code places the lane lexicographically and puts `PKG_A` in the first
slot (y = -9/10). -/
theorem package_lane_order_counterexample :
    dictLookup (HierarchicalLayout.calculate_layout gDeg) "PKG_A" = some (0, -(9/10)) ∧
      dictLookup (specPkgPositions gDeg) "PKG_A" = some (0, 9/10) ∧
      (((0 : ℚ), -(9/10 : ℚ)) : ℚ × ℚ) ≠ ((0 : ℚ), (9/10 : ℚ)) := by
  refine ⟨?_, ?_, ?_⟩
  · rw [hierarchical_pkg_lookup gDeg (by decide) (p := "PKG_A") (by decide)]
    rw [show (sortedStr (nodesOfType gDeg .package)).indexOf "PKG_A" = 0 from by decide,
      show (nodesOfType gDeg .package).length = 2 from by decide]
    norm_num
  · have h := writeVal_enumFrom_map (specPkgOrder gDeg (nodesOfType gDeg .package))
      (fun i => ((0 : ℚ),
        ((i : ℚ) - ((nodesOfType gDeg .package).length : ℚ) / 2 + 1/2) * (9/5))) 0
      (p := "PKG_A") (by decide) (by decide)
    rw [Nat.zero_add] at h
    have h2 : dictLookup (specPkgPositions gDeg) "PKG_A" =
        some ((0 : ℚ),
          (((specPkgOrder gDeg (nodesOfType gDeg .package)).indexOf "PKG_A" : ℚ) -
            ((nodesOfType gDeg .package).length : ℚ) / 2 + 1/2) * (9/5)) :=
      dictLookup_applyWrites_some [] h
    rw [h2,
      show (specPkgOrder gDeg (nodesOfType gDeg .package)).indexOf "PKG_A" = 1 from by decide,
      show (nodesOfType gDeg .package).length = 2 from by decide]
    norm_num
  · intro h
    have := congrArg Prod.snd h
    norm_num at this

def gNoPkg : LGraph := { nodes := [("COMP_1", .component)], edges := [] }

/-- C8: RadialLayout on any graph with zero Package nodes returns the empty
position map; HierarchicalLayout on the empty graph returns the empty map;
SpringLayout returns the empty map when the force-directed base layout is
empty (an empty graph gives `nx.spring_layout` nothing to place).  All are
total functions — no layout errors on edge-case graphs. -/
theorem layouts_tolerate_edge_case_graphs :
    (∀ g : LGraph, nodesOfType g .package = [] → RadialLayout.calculate_layout g = []) ∧
      HierarchicalLayout.calculate_layout { nodes := [], edges := [] } = [] ∧
      ∀ g : LGraph, SpringLayout.calculate_layout g [] = [] := by
  refine ⟨?_, rfl, fun g => rfl⟩
  intro g h
  unfold RadialLayout.calculate_layout
  rw [h]
  rfl

/-- Witness for the C8 theorem on a concrete graph with no Package node. -/
theorem layouts_tolerate_edge_case_graphs_witness :
    RadialLayout.calculate_layout gNoPkg = [] :=
  layouts_tolerate_edge_case_graphs.1 gNoPkg (by decide)
